import Mathlib

/-!
# HybridVector: a shallow embedding of `hybrid_vector.h`

`HybridVector<T, array_sz>` keeps its first `array_sz` elements in a `std::array`
(`m_arr`) and the rest in a `std::vector` (`m_vec`); `m_used` counts the live elements.

Modelling choices.
* `size_t` is `Nat`.  The only subtractions in the source (`request -= array_size`,
  `idx - array_size`, `--m_used`) sit behind guards, which the embedding keeps, and
  `m_used` is bounded by the number of elements that fit in memory, so `++m_used`
  does not wrap.
* `std::array<T, array_sz>` is a function `Fin N → T`: exactly `N` slots, always live.
* `std::vector<T>` is the record `StdVector` (contents and capacity).  The capacity the
  allocator picks when it has to grow is a parameter (`GrowthPolicy`); the library's
  guarantees (capacity at least the request, at least the new size) are built in.
* A call ends in an `Outcome`: a value, a thrown `std::out_of_range`, or undefined
  behaviour of the underlying `std::vector` access (out-of-bounds `operator[]`,
  `back()` of an empty vector).
* Copy and move forms of an operation act alike on the container; what a move leaves
  in the caller's argument is not part of the container state.
* Where the source builds an element from arguments or from a value of another type, the
  way it is built is a parameter: `brace_init` for `value_type{args...}`, `paren_init` for
  the `value_type(args...)` inside `std::vector::emplace_back`, `assign_conv` and
  `construct_conv` for the two conversions of the cross-instantiation constructors.
* The compile-time side (`container_traits`, the `enable_if` conditions, the choice
  between the `const Src&` and `Src&&` constructors, the access to the private
  `other.m_used` in the cross-instantiation constructors) is embedded as functions on
  `Bool` descriptions of the types involved.  `ctor_copy` and `ctor_move` are the bodies
  of the cross-instantiation constructors; `construct_cross_copy` and
  `construct_cross_move` say when a program reaches them.
-/

namespace hybrid_vector

/-! ## The overflow store: `std::vector<T>` -/

/-- Capacity choices left open by the C++ standard: `reserve_cap old request` is the
capacity the allocator would like after `reserve(request)`, `grow_cap old` the one it
would like when an append finds the vector full. -/
structure GrowthPolicy where
  reserve_cap : Nat → Nat → Nat
  grow_cap : Nat → Nat

/-- Libstdc++-like policy: `reserve` allocates exactly the request, a full vector doubles. -/
def doubling : GrowthPolicy where
  reserve_cap := fun _ request => request
  grow_cap := fun old => 2 * old

/-- A `std::vector<T>`: its elements in order, and its capacity. -/
structure StdVector (T : Type) where
  data : List T
  cap : Nat
deriving DecidableEq, Repr

namespace StdVector

variable {T : Type}

/-- Value-initialised vector `m_vec{}`: no elements, nothing allocated. -/
def empty : StdVector T := { data := [], cap := 0 }

/-- Library `std::vector::size`. -/
def size (v : StdVector T) : Nat := v.data.length

/-- Library `std::vector::capacity`. -/
def capacity (v : StdVector T) : Nat := v.cap

/-- Library `std::vector::reserve(n)`: when `n` exceeds the capacity, the capacity becomes at
least `n`; the elements are kept.  Otherwise nothing happens. -/
def reserve (P : GrowthPolicy) (v : StdVector T) (n : Nat) : StdVector T :=
  if v.cap < n then { v with cap := max n (P.reserve_cap v.cap n) } else v

/-- Library `std::vector::clear`: drops the elements, keeps the capacity. -/
def clear (v : StdVector T) : StdVector T := { v with data := [] }

/-- Library `std::vector::push_back`: appends; the capacity is kept while there is room. -/
def push_back (P : GrowthPolicy) (v : StdVector T) (t : T) : StdVector T :=
  { data := v.data ++ [t]
    cap := if v.data.length < v.cap then v.cap
           else max (v.data.length + 1) (P.grow_cap v.cap) }

/-- Library `std::vector::emplace_back`, with the element already constructed from the
arguments by the caller of this definition. -/
def emplace_back (P : GrowthPolicy) (v : StdVector T) (t : T) : StdVector T :=
  push_back P v t

/-- Library `std::vector::operator[]` (read): `none` is undefined behaviour. -/
def get (v : StdVector T) (i : Nat) : Option T := v.data[i]?

/-- Write through the reference `std::vector::operator[]` returns: `none` is
undefined behaviour. -/
def assign (v : StdVector T) (i : Nat) (t : T) : Option (StdVector T) :=
  if i < v.data.length then some { v with data := v.data.set i t } else none

/-- Library `std::vector::back`: `none` (empty vector) is undefined behaviour. -/
def back (v : StdVector T) : Option T := v.data.getLast?

/-- Library `std::vector::pop_back`: removes the last element, keeps the capacity. -/
def pop_back (v : StdVector T) : StdVector T := { v with data := v.data.dropLast }

/-- The library's own invariant: the capacity covers the elements. -/
def wf (v : StdVector T) : Prop := v.data.length ≤ v.cap

instance (v : StdVector T) : Decidable v.wf := Nat.decLe _ _

end StdVector

/-! ## Results of a call -/

/-- The two `std::out_of_range` exceptions the source throws, told apart by message:
`"index out of range: ((idx)%zu >= (size)%zu). ..."` and `"HybridVector is empty. ..."`. -/
inductive OutOfRange where
  | index_out_of_range (idx size : Nat)
  | is_empty
deriving DecidableEq, Repr

/-- How a call ends. -/
inductive Outcome (α : Type) where
  | ok (a : α)
  | threw (e : OutOfRange)
  | undefined
deriving DecidableEq, Repr

/-- How a construction ends once the compiler has decided it: the program is ill-formed,
or a constructor other than the one embedded here is selected, or the embedded
constructor is selected and its body runs with `result`. -/
inductive Built (α : Type) where
  | ill_formed
  | other_constructor
  | ran (result : α)

/-! ## The container -/

/-- Data members of `HybridVector<T, array_sz>`, with `N = array_sz`. -/
structure HybridVector (T : Type) (N : Nat) where
  m_used : Nat
  m_arr : Fin N → T
  m_vec : StdVector T

namespace HybridVector

variable {T : Type} {N : Nat}

/-- Constructor `HybridVector()`: `m_used(0u), m_arr{}, m_vec{}`. -/
def ctor_default [Inhabited T] : HybridVector T N :=
  { m_used := 0, m_arr := fun _ => default, m_vec := StdVector.empty }

/-- Source `size()`. -/
def size (s : HybridVector T N) : Nat := s.m_used

/-- Source `capacity()`: `array_size + m_vec.capacity()`. -/
def capacity (s : HybridVector T N) : Nat := N + s.m_vec.capacity

/-- The amount `reserve` hands to `m_vec.reserve`, when it gets that far:
`if (request <= array_size) return; request -= array_size;`. -/
def reserve_request (N request : Nat) : Option Nat :=
  if request ≤ N then none else some (request - N)

/-- Source `reserve(request)`. -/
def reserve (P : GrowthPolicy) (s : HybridVector T N) (request : Nat) : HybridVector T N :=
  match reserve_request N request with
  | none => s
  | some request =>
    let capacity := s.m_vec.capacity
    if request > capacity then { s with m_vec := s.m_vec.reserve P request } else s

/-- Source `clear()`: the loop assigns `value_type{}` to each of the `array_size` slots. -/
def clear [Inhabited T] (s : HybridVector T N) : HybridVector T N :=
  { m_used := 0, m_arr := fun _ => default, m_vec := s.m_vec.clear }

/-- Source `validate_idx_else_throw(idx)`. -/
def validate_idx_else_throw (s : HybridVector T N) (idx : Nat) : Except OutOfRange Unit :=
  if idx < s.m_used then .ok () else .error (.index_out_of_range idx s.m_used)

/-- Source `validate_nonempty_else_throw()`. -/
def validate_nonempty_else_throw (s : HybridVector T N) : Except OutOfRange Unit :=
  if s.m_used > 0 then .ok () else .error .is_empty

/-- Source `operator[](idx)` read (the const form, and a read through the mutable form):
the value found, paired with the container as the call leaves it. -/
def index (s : HybridVector T N) (idx : Nat) : Outcome T × HybridVector T N :=
  match s.validate_idx_else_throw idx with
  | .error e => (.threw e, s)
  | .ok () =>
    if h : idx < N then (.ok (s.m_arr ⟨idx, h⟩), s)
    else
      match s.m_vec.get (idx - N) with
      | some t => (.ok t, s)
      | none => (.undefined, s)

/-- A write `(*this)[idx] = t` through the reference the mutable `operator[]` returns. -/
def index_assign (s : HybridVector T N) (idx : Nat) (t : T) : Outcome Unit × HybridVector T N :=
  match s.validate_idx_else_throw idx with
  | .error e => (.threw e, s)
  | .ok () =>
    if h : idx < N then (.ok (), { s with m_arr := Function.update s.m_arr ⟨idx, h⟩ t })
    else
      match s.m_vec.assign (idx - N) t with
      | some v => (.ok (), { s with m_vec := v })
      | none => (.undefined, s)

/-- Source `push_back(t)`, copy and move forms. -/
def push_back (P : GrowthPolicy) (s : HybridVector T N) (t : T) : HybridVector T N :=
  let s1 : HybridVector T N :=
    if h : s.m_used < N then { s with m_arr := Function.update s.m_arr ⟨s.m_used, h⟩ t }
    else { s with m_vec := s.m_vec.push_back P t }
  { s1 with m_used := s1.m_used + 1 }

/-- Source `emplace_back(args...)`.  The inline branch builds `value_type{args...}`
(`brace_init`); the overflow branch forwards the arguments to
`m_vec.emplace_back`, which builds `value_type(args...)` (`paren_init`). -/
def emplace_back {A : Type} (P : GrowthPolicy) (brace_init paren_init : A → T)
    (s : HybridVector T N) (args : A) : HybridVector T N :=
  let s1 : HybridVector T N :=
    if h : s.m_used < N then
      { s with m_arr := Function.update s.m_arr ⟨s.m_used, h⟩ (brace_init args) }
    else { s with m_vec := s.m_vec.emplace_back P (paren_init args) }
  { s1 with m_used := s1.m_used + 1 }

/-- Source `pop_back()`: the removed value, paired with the container as the call leaves it. -/
def pop_back [Inhabited T] (s : HybridVector T N) : Outcome T × HybridVector T N :=
  match s.validate_nonempty_else_throw with
  | .error e => (.threw e, s)
  | .ok () =>
    let s1 : HybridVector T N := { s with m_used := s.m_used - 1 }
    if h : s1.m_used < N then
      let t := s1.m_arr ⟨s1.m_used, h⟩
      (.ok t, { s1 with m_arr := Function.update s1.m_arr ⟨s1.m_used, h⟩ default })
    else
      match s1.m_vec.back with
      | some t => (.ok t, { s1 with m_vec := s1.m_vec.pop_back })
      | none => (.undefined, s1)

/-- A run of `push_back` calls, one for each element of `xs`, in order. -/
def push_back_all (P : GrowthPolicy) (s : HybridVector T N) (xs : List T) : HybridVector T N :=
  xs.foldl (fun s x => s.push_back P x) s

/-! ## Constructors from other sequences -/

/-- Constructor `HybridVector(BeginIter itBegin, EndIter itEnd)`: `range` lists the values `*it`
the loop meets from `itBegin` up to `itEnd`; `conv` is their conversion to
`value_type` at the call `push_back(*it)`. -/
def ctor_iter_pair [Inhabited T] {V : Type} (P : GrowthPolicy) (conv : V → T)
    (range : List V) : HybridVector T N :=
  range.foldl (fun s x => s.push_back P (conv x)) ctor_default

/-- Constructor `HybridVector(const Src& src)`: `src` lists the elements from `src.begin()` to
`src.end()`. -/
def ctor_readable [Inhabited T] {V : Type} (P : GrowthPolicy) (conv : V → T)
    (src : List V) : HybridVector T N :=
  src.foldl (fun s x => s.push_back P (conv x)) ctor_default

/-- Constructor `HybridVector(Src&& xsrc)`: pushes `std::move(*it)` for each element, then
`xsrc.clear()`.  Returns the new container and the source as it is left. -/
def ctor_consumable [Inhabited T] {V : Type} (P : GrowthPolicy) (conv : V → T)
    (xsrc : List V) : HybridVector T N × List V :=
  (xsrc.foldl (fun s x => s.push_back P (conv x)) ctor_default, [])

/-- One round of the loop in the cross-instantiation constructors, at index `i`:
`if (i < self_arr_sz) m_arr[i] = other[i]; else m_vec.emplace_back(other[i]);`.
`assign_conv` is the conversion done by the assignment, `construct_conv` the
construction of a `T` from a `U` inside `emplace_back`. -/
def ctor_cross_step {U : Type} {M : Nat} (P : GrowthPolicy) (assign_conv construct_conv : U → T)
    (other : HybridVector U M) (acc : Outcome (HybridVector T N)) (i : Nat) :
    Outcome (HybridVector T N) :=
  match acc with
  | .ok s =>
    match (other.index i).1 with
    | .ok u =>
      if h : i < N then .ok { s with m_arr := Function.update s.m_arr ⟨i, h⟩ (assign_conv u) }
      else .ok { s with m_vec := s.m_vec.emplace_back P (construct_conv u) }
    | .threw e => .threw e
    | .undefined => .undefined
  | .threw e => .threw e
  | .undefined => .undefined

/-- Body of the constructor `HybridVector(const HybridVector<U, other_array_sz>& other)`:
`m_used(other.m_used), m_arr{}, m_vec{}`, then `reserve(copy_count)` and the loop
over `i < copy_count`.  This is what the body computes when it runs; whether a program
that asks for this construction compiles, and whether this constructor is the one
selected, is `construct_cross_copy`. -/
def ctor_copy [Inhabited T] {U : Type} {M : Nat} (P : GrowthPolicy)
    (assign_conv construct_conv : U → T) (other : HybridVector U M) :
    Outcome (HybridVector T N) :=
  let s0 : HybridVector T N :=
    { m_used := other.m_used, m_arr := fun _ => default, m_vec := StdVector.empty }
  let copy_count := s0.m_used
  (List.range copy_count).foldl (ctor_cross_step P assign_conv construct_conv other)
    (.ok (s0.reserve P copy_count))

/-- Body of the constructor `HybridVector(HybridVector<U, other_array_sz>&& other)`: as
the copy, reading `std::move(other[i])`, then `other.clear()`.  Returns the new container
and `other` as it is left; `clear` overwrites every slot a move has emptied.  This is
what the body computes when it runs; whether a program that asks for this construction
compiles is `construct_cross_move`. -/
def ctor_move [Inhabited T] {U : Type} [Inhabited U] {M : Nat} (P : GrowthPolicy)
    (assign_conv construct_conv : U → T) (other : HybridVector U M) :
    Outcome (HybridVector T N × HybridVector U M) :=
  let s0 : HybridVector T N :=
    { m_used := other.m_used, m_arr := fun _ => default, m_vec := StdVector.empty }
  let copy_count := s0.m_used
  match (List.range copy_count).foldl (ctor_cross_step P assign_conv construct_conv other)
      (.ok (s0.reserve P copy_count)) with
  | .ok s => .ok (s, other.clear)
  | .threw e => .threw e
  | .undefined => .undefined

/-- Source, the member initialiser `m_used(other.m_used)` of both cross-instantiation
constructors (`hybrid_vector.h:65` and `:88`).  In `hybrid_vector_def.h` the member
`m_used` is declared `private` and the class declares no friend, so the read compiles
only when `HybridVector<U, other_array_sz>` is the class `HybridVector<T, array_sz>`
itself.  The flag `same_value_type` says whether `U` and `T` are the same type. -/
def other_m_used_accessible (same_value_type : Bool) (other_array_sz array_sz : Nat) : Bool :=
  same_value_type && decide (other_array_sz = array_sz)

/-- The construction `HybridVector<T, N> dst = other` from an lvalue `other` of class
`HybridVector<U, M>`.  For another class the template constructor is the only candidate,
and it is either disabled or its member initialiser does not compile: the program is
ill-formed.  For the same class the implicitly declared copy constructor takes the same
parameter type and, not being a template, is the one selected: the body `ctor_copy`
does not run. -/
def construct_cross_copy {T U : Type} {N M : Nat} (same_value_type : Bool)
    (_other : HybridVector U M) : Built (Outcome (HybridVector T N)) :=
  if other_m_used_accessible same_value_type M N then .other_constructor else .ill_formed

/-- The construction `HybridVector<T, N> dst = std::move(other)` from an `other` of class
`HybridVector<U, M>`.  For another class the program is ill-formed, as for the copy.  For
the same class the template is selected (the class declares its destructor, so no move
constructor is declared implicitly, and an rvalue reference parameter is preferred to
the copy constructor's `const&`), the read of `other.m_used` is allowed, and the body
`ctor_move` runs. -/
def construct_cross_move {T U : Type} [Inhabited T] [Inhabited U] {N M : Nat}
    (P : GrowthPolicy) (same_value_type : Bool) (assign_conv construct_conv : U → T)
    (other : HybridVector U M) : Built (Outcome (HybridVector T N × HybridVector U M)) :=
  if other_m_used_accessible same_value_type M N then
    .ran (ctor_move P assign_conv construct_conv other)
  else .ill_formed

/-! ## Invariants of the data model -/

/-- Invariant `overflow_region.length == max(0, length − N)`; on `Nat` the subtraction
`m_used - N` already stops at `0`. -/
def overflow_length_inv (s : HybridVector T N) : Prop := s.m_vec.size = s.m_used - N

instance (s : HybridVector T N) : Decidable s.overflow_length_inv :=
  inferInstanceAs (Decidable (_ = _))

/-- Inline slots at an index `≥ length` hold the default value. -/
def reset_slot_inv [Inhabited T] (s : HybridVector T N) : Prop :=
  ∀ j : Fin N, s.m_used ≤ j.val → s.m_arr j = default

instance [Inhabited T] [DecidableEq T] (s : HybridVector T N) : Decidable s.reset_slot_inv :=
  inferInstanceAs (Decidable (∀ j : Fin N, s.m_used ≤ j.val → s.m_arr j = default))

/-- The three facts that hold of every state a program can reach: the two storage
invariants and the overflow store's own invariant. -/
def all_inv [Inhabited T] (s : HybridVector T N) : Prop :=
  s.overflow_length_inv ∧ s.reset_slot_inv ∧ s.m_vec.wf

/-- The logical sequence a container holds: its first `min(length, N)` inline slots,
then the overflow contents. -/
def to_list (s : HybridVector T N) : List T :=
  (List.ofFn s.m_arr).take s.m_used ++ s.m_vec.data

/-- Equality of the observable parts: length, inline slots, overflow contents
(the overflow capacity is left out). -/
def same_contents (s t : HybridVector T N) : Prop :=
  s.m_used = t.m_used ∧ s.m_arr = t.m_arr ∧ s.m_vec.data = t.m_vec.data

end HybridVector

/-- States a program can reach: built by a constructor, then changed by member calls.
A container built by a cross-instantiation constructor starts from a reachable
container of another element type and inline capacity; the rules for these two
constructors take the result of the body wherever it would run, which covers the
programs that compile (`construct_cross_move`) and more. -/
inductive Reachable (P : GrowthPolicy) :
    (T : Type) → [Inhabited T] → (N : Nat) → HybridVector T N → Prop where
  | ctor_default (T : Type) [Inhabited T] (N : Nat) :
      Reachable P T N HybridVector.ctor_default
  | ctor_iter_pair (T : Type) [Inhabited T] (N : Nat) {V : Type} (conv : V → T) (range : List V) :
      Reachable P T N (HybridVector.ctor_iter_pair P conv range)
  | ctor_readable (T : Type) [Inhabited T] (N : Nat) {V : Type} (conv : V → T) (src : List V) :
      Reachable P T N (HybridVector.ctor_readable P conv src)
  | ctor_consumable (T : Type) [Inhabited T] (N : Nat) {V : Type} (conv : V → T) (xsrc : List V) :
      Reachable P T N (HybridVector.ctor_consumable P conv xsrc).1
  | ctor_copy (T : Type) [Inhabited T] (N : Nat) (U : Type) [Inhabited U] (M : Nat)
      (assign_conv construct_conv : U → T) (other : HybridVector U M) (s : HybridVector T N) :
      Reachable P U M other →
      HybridVector.ctor_copy P assign_conv construct_conv other = .ok s →
      Reachable P T N s
  | ctor_move (T : Type) [Inhabited T] (N : Nat) (U : Type) [Inhabited U] (M : Nat)
      (assign_conv construct_conv : U → T) (other other1 : HybridVector U M)
      (s : HybridVector T N) :
      Reachable P U M other →
      HybridVector.ctor_move P assign_conv construct_conv other = .ok (s, other1) →
      Reachable P T N s
  | moved_from (T : Type) [Inhabited T] (N : Nat) (U : Type) [Inhabited U] (M : Nat)
      (assign_conv construct_conv : U → T) (other other1 : HybridVector U M)
      (s : HybridVector T N) :
      Reachable P U M other →
      HybridVector.ctor_move P assign_conv construct_conv other = .ok (s, other1) →
      Reachable P U M other1
  | push_back (T : Type) [Inhabited T] (N : Nat) (s : HybridVector T N) (t : T) :
      Reachable P T N s → Reachable P T N (s.push_back P t)
  | emplace_back (T : Type) [Inhabited T] (N : Nat) {A : Type} (brace_init paren_init : A → T)
      (s : HybridVector T N) (args : A) :
      Reachable P T N s → Reachable P T N (s.emplace_back P brace_init paren_init args)
  | pop_back (T : Type) [Inhabited T] (N : Nat) (s : HybridVector T N) :
      Reachable P T N s → Reachable P T N s.pop_back.2
  | clear (T : Type) [Inhabited T] (N : Nat) (s : HybridVector T N) :
      Reachable P T N s → Reachable P T N s.clear
  | reserve (T : Type) [Inhabited T] (N : Nat) (s : HybridVector T N) (request : Nat) :
      Reachable P T N s → Reachable P T N (s.reserve P request)
  | index (T : Type) [Inhabited T] (N : Nat) (s : HybridVector T N) (idx : Nat) :
      Reachable P T N s → Reachable P T N (s.index idx).2
  | index_assign (T : Type) [Inhabited T] (N : Nat) (s : HybridVector T N) (idx : Nat) (t : T) :
      Reachable P T N s → Reachable P T N (s.index_assign idx t).2

/-! ## Sample states -/

/-- Sample state at `N = 2`: `7, 8` inline and `9` in the overflow region. -/
def sample_three : HybridVector Nat 2 :=
  { m_used := 3, m_arr := fun j => 7 + j.val, m_vec := { data := [9], cap := 1 } }

/-- Sample state at `N = 2`: `7` inline, the second slot reset, no overflow. -/
def sample_one : HybridVector Nat 2 :=
  { m_used := 1, m_arr := fun j => if j.val = 0 then 7 else default,
    m_vec := StdVector.empty }

/-- Sample run at `N = 2`: three appends to a fresh container. -/
def sample_run_push : HybridVector Nat 2 :=
  (((HybridVector.ctor_default).push_back doubling 4).push_back doubling 5).push_back doubling 6

/-- Sample run at `N = 2`: an append to a fresh container, then a removal. -/
def sample_run_pop : HybridVector Nat 2 :=
  ((HybridVector.ctor_default).push_back doubling 4).pop_back.2

/-- Sample state at `N = 2`: `1, 2` inline and `3, 4, 5` in the overflow region. -/
def sample_five : HybridVector Nat 2 :=
  { m_used := 5, m_arr := fun j => 1 + j.val, m_vec := { data := [3, 4, 5], cap := 4 } }

/-! ## Runs of member calls -/

/-- A member call on a container, as a program makes it. -/
inductive Call (T A : Type) where
  | push_back (t : T)
  | emplace_back (args : A)
  | pop_back
  | index (idx : Nat)
  | index_assign (idx : Nat) (t : T)

/-- The container after one call (whether it returns or throws). -/
def Call.run {T A : Type} [Inhabited T] {N : Nat} (P : GrowthPolicy)
    (brace_init paren_init : A → T) (s : HybridVector T N) : Call T A → HybridVector T N
  | .push_back t => s.push_back P t
  | .emplace_back args => s.emplace_back P brace_init paren_init args
  | .pop_back => s.pop_back.2
  | .index idx => (s.index idx).2
  | .index_assign idx t => (s.index_assign idx t).2

/-- The container after a sequence of calls, made in order. -/
def run_calls {T A : Type} [Inhabited T] {N : Nat} (P : GrowthPolicy)
    (brace_init paren_init : A → T) (s : HybridVector T N) (cs : List (Call T A)) :
    HybridVector T N :=
  cs.foldl (Call.run P brace_init paren_init) s

/-- The length never exceeds `N` during the sequence of calls: not before the first call,
not after any call. -/
def fits_inline {T A : Type} [Inhabited T] {N : Nat} (P : GrowthPolicy)
    (brace_init paren_init : A → T) : HybridVector T N → List (Call T A) → Prop
  | s, [] => s.m_used ≤ N
  | s, c :: cs =>
    s.m_used ≤ N ∧ fits_inline P brace_init paren_init (c.run P brace_init paren_init s) cs

/-! ## Which constructor a call selects -/

/-- Source `container_traits::detail::container_detail<ValueType, ContainerType>`: what the
member tests find for one `ContainerType`, that is, for a class type together with the
constness the deduced `Src` carries. -/
structure container_detail where
  has_clear : Bool
  is_convertible_to_value : Bool
  is_moveable_to_value : Bool
  is_begin_end_bool_comparable : Bool
deriving DecidableEq, Repr

/-- Source `container_traits::is_readable_container`: the specialisation for
`is_convertible_to_value = true, is_begin_end_bool_comparable = true` is the only
`std::true_type`. -/
def is_readable_container (d : container_detail) : Bool :=
  d.is_convertible_to_value && d.is_begin_end_bool_comparable

/-- Source `container_traits::is_eraseable_container`: the specialisation for
`has_clear = true, is_moveable_to_value = true, is_begin_end_bool_comparable = true` is the
only `std::true_type`. -/
def is_eraseable_container (d : container_detail) : Bool :=
  d.has_clear && d.is_moveable_to_value && d.is_begin_end_bool_comparable

/-- A class type offered as a source: what the member tests find on a non-const object
(`detail false`) and on a const object (`detail true`) of the class. -/
structure SourceClass where
  detail : Bool → container_detail

/-- The argument expression of a one-argument construction `HybridVector<T, N> h(arg)`:
its value category and whether its type is const. -/
structure ArgExpr where
  is_lvalue : Bool
  is_const : Bool
deriving DecidableEq, Repr

/-- The constructor template a one-argument construction from an external source ends up
calling. -/
inductive Overload where
  | copy_from_readable
  | move_from_consumable
  | no_match
deriving DecidableEq, Repr

/-- Overload resolution between `explicit HybridVector(const Src& src)` (enabled by
`is_readable_container<Src, T>`) and `explicit HybridVector(Src&& xsrc)` (enabled by
`is_eraseable_container<Src, T>`), as declared in `hybrid_vector_def.h`.

For `const Src&` the deduced `Src` is the class type without `const`.  In `Src&&` the
parameter is a deduced `Src&&`, so it binds lvalues too: `Src` is `C&` for a non-const
lvalue, `const C&` for a const lvalue, `C` or `const C` for an rvalue, and the member
tests run on a type with the argument's constness.  When both templates are viable the
C++ ranking applies: `C&` beats `const C&` for a non-const lvalue, an rvalue reference
beats `const C&` for an rvalue, and for a const lvalue both parameters are `const C&`
and the more specialised `const Src&` wins. -/
def select_overload (c : SourceClass) (arg : ArgExpr) : Overload :=
  let copy_viable := is_readable_container (c.detail false)
  let move_viable := is_eraseable_container (c.detail arg.is_const)
  if move_viable && copy_viable then
    if arg.is_lvalue && arg.is_const then .copy_from_readable else .move_from_consumable
  else if move_viable then .move_from_consumable
  else if copy_viable then .copy_from_readable
  else .no_match

/-- The construction `HybridVector<T, N> h(arg)` from an external source holding `src`:
the new container and the source as it is left; `none` when no constructor matches
(the program does not compile). -/
def construct_from_source {T V : Type} [Inhabited T] {N : Nat} (P : GrowthPolicy)
    (conv : V → T) (c : SourceClass) (arg : ArgExpr) (src : List V) :
    Option (HybridVector T N × List V) :=
  match select_overload c arg with
  | .copy_from_readable => some (HybridVector.ctor_readable P conv src, src)
  | .move_from_consumable => some (HybridVector.ctor_consumable P conv src)
  | .no_match => none

/-- The class `std::vector<int>` as a source for element type `int`: iterable and
convertible whether const or not, `clear()` callable on a non-const object only. -/
def sample_std_vector : SourceClass where
  detail := fun is_const =>
    { has_clear := !is_const, is_convertible_to_value := true,
      is_moveable_to_value := true, is_begin_end_bool_comparable := true }

/-- Source, the `enable_if` condition on both cross-instantiation constructors of
`HybridVector<T, array_sz>` taking a `HybridVector<U, other_array_sz>`:
`std::is_convertible<T, U>::value`.  The relation `is_convertible a b` stands for
`std::is_convertible<a, b>::value`, "`a` converts to `b`". -/
def cross_ctor_enabled {Ty : Type} (is_convertible : Ty → Ty → Bool) (T U : Ty) : Bool :=
  is_convertible T U

/-- The condition in the words of the specification: the source's element type `U`
converts to this container's element type `T`. -/
def cross_ctor_legal_spec {Ty : Type} (is_convertible : Ty → Ty → Bool) (T U : Ty) : Bool :=
  is_convertible U T

/-- Two element types for a sample: `std::string` and `const char*`. -/
inductive SampleType where
  | std_string
  | const_char_ptr
deriving DecidableEq, Repr

/-- The relation `std::is_convertible` on the sample types: `const char*` converts to
`std::string` (converting constructor), `std::string` does not convert to
`const char*`, each type converts to itself. -/
def sample_is_convertible : SampleType → SampleType → Bool
  | .std_string, .std_string => true
  | .const_char_ptr, .const_char_ptr => true
  | .const_char_ptr, .std_string => true
  | .std_string, .const_char_ptr => false

/-- The value `std::vector<int>{a, b}` (initializer-list constructor): the two elements
`a, b`. -/
def sample_brace_init : Nat × Nat → List Nat := fun args => [args.1, args.2]

/-- The value `std::vector<int>(n, v)` (count and value constructor): `n` copies of `v`. -/
def sample_paren_init : Nat × Nat → List Nat := fun args => List.replicate args.1 args.2

/-- A `HybridVector<std::vector<int>, 1>` holding one element, so that the next append
goes to the overflow region. -/
def sample_full_inline : HybridVector (List Nat) 1 :=
  { m_used := 1, m_arr := fun _ => [0], m_vec := StdVector.empty }

/-! ## Basic facts about the operations -/

namespace HybridVector

variable {T : Type} {N : Nat}

theorem push_back_m_used (P : GrowthPolicy) (s : HybridVector T N) (t : T) :
    (s.push_back P t).m_used = s.m_used + 1 := by
  unfold push_back
  split <;> rfl

theorem push_back_inline (P : GrowthPolicy) (s : HybridVector T N) (t : T) (h : s.m_used < N) :
    s.push_back P t =
      { m_used := s.m_used + 1, m_arr := Function.update s.m_arr ⟨s.m_used, h⟩ t,
        m_vec := s.m_vec } := by
  simp [push_back, h]

theorem push_back_overflow (P : GrowthPolicy) (s : HybridVector T N) (t : T) (h : ¬ s.m_used < N) :
    s.push_back P t =
      { m_used := s.m_used + 1, m_arr := s.m_arr, m_vec := s.m_vec.push_back P t } := by
  simp [push_back, h]

theorem index_inline (s : HybridVector T N) (idx : Nat) (h1 : idx < s.m_used) (h2 : idx < N) :
    s.index idx = (.ok (s.m_arr ⟨idx, h2⟩), s) := by
  simp [index, validate_idx_else_throw, h1, h2]

theorem index_overflow (s : HybridVector T N) (idx : Nat) (h1 : idx < s.m_used) (h2 : ¬ idx < N)
    (t : T) (h3 : s.m_vec.data[idx - N]? = some t) :
    s.index idx = (.ok t, s) := by
  simp [index, validate_idx_else_throw, h1, h2, StdVector.get, h3]

theorem push_back_overflow_length_inv (P : GrowthPolicy) (s : HybridVector T N) (t : T)
    (h : s.overflow_length_inv) : (s.push_back P t).overflow_length_inv := by
  unfold overflow_length_inv StdVector.size at *
  by_cases hlt : s.m_used < N
  · rw [push_back_inline P s t hlt]
    simp only
    omega
  · rw [push_back_overflow P s t hlt]
    simp only [StdVector.push_back, List.length_append, List.length_singleton]
    omega

end HybridVector

theorem push_back_step {T : Type} {N : Nat} (P : GrowthPolicy) (s : HybridVector T N) (v : T)
    (hinv : s.overflow_length_inv) :
    (s.push_back P v).size = s.size + 1 ∧
    ((s.push_back P v).index s.size).1 = .ok v ∧
    (∀ i, i < s.size → ((s.push_back P v).index i).1 = (s.index i).1) ∧
    (s.size < N → (s.push_back P v).m_vec = s.m_vec ∧
      ∀ j : Fin N, j.val ≠ s.size → (s.push_back P v).m_arr j = s.m_arr j) ∧
    (N ≤ s.size → (s.push_back P v).m_arr = s.m_arr ∧
      (s.push_back P v).m_vec.data = s.m_vec.data ++ [v]) := by
  unfold HybridVector.overflow_length_inv StdVector.size at hinv
  unfold HybridVector.size
  by_cases hlt : s.m_used < N
  · rw [HybridVector.push_back_inline P s v hlt]
    refine ⟨rfl, ?_, ?_, ?_, ?_⟩
    · rw [HybridVector.index_inline _ _ (by simp) hlt]
      simp
    · intro i hi
      have hiN : i < N := by omega
      rw [HybridVector.index_inline _ _ (by simp; omega) hiN, HybridVector.index_inline _ _ hi hiN]
      have : (⟨i, hiN⟩ : Fin N) ≠ ⟨s.m_used, hlt⟩ := by
        intro h
        have := congrArg Fin.val h
        simp at this
        omega
      simp [Function.update_noteq this]
    · intro _
      refine ⟨rfl, ?_⟩
      intro j hj
      have : j ≠ ⟨s.m_used, hlt⟩ := by
        intro h
        exact hj (congrArg Fin.val h)
      simp [Function.update_noteq this]
    · intro h
      omega
  · rw [HybridVector.push_back_overflow P s v hlt]
    refine ⟨rfl, ?_, ?_, ?_, ?_⟩
    · rw [HybridVector.index_overflow _ _ (by simp) hlt v]
      simp only [StdVector.push_back]
      have : s.m_used - N = s.m_vec.data.length := by omega
      rw [this]
      simp
    · intro i hi
      by_cases hiN : i < N
      · rw [HybridVector.index_inline _ _ (by simp; omega) hiN, HybridVector.index_inline _ _ hi hiN]
      · have hb : i - N < s.m_vec.data.length := by omega
        rw [HybridVector.index_overflow _ _ (by simp; omega) hiN (s.m_vec.data[i - N]),
          HybridVector.index_overflow _ _ hi hiN (s.m_vec.data[i - N])]
        · exact List.getElem?_eq_getElem hb
        · simp only [StdVector.push_back]
          rw [List.getElem?_append_left hb]
          exact List.getElem?_eq_getElem hb
    · intro h
      omega
    · intro _
      exact ⟨rfl, rfl⟩

theorem push_back_all_step {T : Type} {N : Nat} (P : GrowthPolicy) (xs : List T) :
    ∀ s : HybridVector T N, s.overflow_length_inv →
      (s.push_back_all P xs).overflow_length_inv ∧
      (s.push_back_all P xs).size = s.size + xs.length ∧
      (∀ i, i < s.size → ((s.push_back_all P xs).index i).1 = (s.index i).1) ∧
      (∀ k (hk : k < xs.length), ((s.push_back_all P xs).index (s.size + k)).1 = .ok xs[k]) := by
  induction xs with
  | nil =>
    intro s hinv
    refine ⟨hinv, rfl, fun _ _ => rfl, ?_⟩
    intro k hk
    simp at hk
  | cons x xs ih =>
    intro s hinv
    have hstep := push_back_step P s x hinv
    have hnext := ih (s.push_back P x) (HybridVector.push_back_overflow_length_inv P s x hinv)
    have hfold : s.push_back_all P (x :: xs) = (s.push_back P x).push_back_all P xs := rfl
    rw [hfold]
    obtain ⟨hsz, hlast, hold, -, -⟩ := hstep
    obtain ⟨ninv, nsz, nold, nnew⟩ := hnext
    refine ⟨ninv, ?_, ?_, ?_⟩
    · rw [nsz, hsz, List.length_cons]
      omega
    · intro i hi
      rw [nold i (by omega), hold i hi]
    · intro k hk
      cases k with
      | zero =>
        rw [Nat.add_zero, nold _ (by omega), hlast]
        rfl
      | succ k =>
        have hk2 : k < xs.length := by simpa using hk
        have := nnew k hk2
        rw [hsz] at this
        have he : s.size + (k + 1) = s.size + 1 + k := by omega
        rw [he, this]
        rfl

/-- C1. Under the overflow-length invariant, `push_back(v)` raises the length by one,
`index(old length)` then returns `v`, and `index(i)` returns what it returned before for
every `i` below the old length.  An inline write (old length `< N`) changes only that
slot; an overflow write (old length `≥ N`) appends to the overflow region and leaves the
inline slots alone.  Hence in a run of appends the `k`-th value appended sits `k - 1`
places after the old length. -/
theorem push_back_spec {T : Type} {N : Nat} (P : GrowthPolicy) (s : HybridVector T N) (v : T)
    (hinv : s.overflow_length_inv) :
    (s.push_back P v).size = s.size + 1 ∧
    ((s.push_back P v).index s.size).1 = .ok v ∧
    (∀ i, i < s.size → ((s.push_back P v).index i).1 = (s.index i).1) ∧
    (s.size < N → (s.push_back P v).m_vec = s.m_vec ∧
      ∀ j : Fin N, j.val ≠ s.size → (s.push_back P v).m_arr j = s.m_arr j) ∧
    (N ≤ s.size → (s.push_back P v).m_arr = s.m_arr ∧
      (s.push_back P v).m_vec.data = s.m_vec.data ++ [v]) ∧
    (∀ (xs : List T) (k : Nat) (hk : k < xs.length),
      ((s.push_back_all P xs).index (s.size + k)).1 = .ok xs[k]) := by
  obtain ⟨h1, h2, h3, h4, h5⟩ := push_back_step P s v hinv
  exact ⟨h1, h2, h3, h4, h5, fun xs k hk => (push_back_all_step P xs s hinv).2.2.2 k hk⟩

/-- Witness for C1 at `sample_three` (full inline region, one overflow element),
appending `10`. -/
theorem push_back_spec_witness :
    sample_three.overflow_length_inv ∧
      (sample_three.push_back doubling 10).size = sample_three.size + 1 ∧
      ((sample_three.push_back doubling 10).index sample_three.size).1 = .ok 10 :=
  ⟨by decide, (push_back_spec doubling sample_three 10 (by decide)).1,
    (push_back_spec doubling sample_three 10 (by decide)).2.1⟩

namespace HybridVector

variable {T : Type} {N : Nat}

theorem index_snd (s : HybridVector T N) (idx : Nat) : (s.index idx).2 = s := by
  unfold index
  split
  · rfl
  · split
    · rfl
    · split <;> rfl

theorem index_threw_of_le (s : HybridVector T N) (idx : Nat) (h : s.m_used ≤ idx) :
    s.index idx = (.threw (.index_out_of_range idx s.m_used), s) := by
  have : ¬ idx < s.m_used := by omega
  simp [index, validate_idx_else_throw, this]

theorem index_not_threw_of_lt (s : HybridVector T N) (idx : Nat) (h : idx < s.m_used)
    (e : OutOfRange) : (s.index idx).1 ≠ .threw e := by
  unfold index
  simp only [validate_idx_else_throw, h, if_true]
  split
  · simp
  · split <;> simp

theorem index_assign_threw_of_le (s : HybridVector T N) (idx : Nat) (t : T)
    (h : s.m_used ≤ idx) :
    s.index_assign idx t = (.threw (.index_out_of_range idx s.m_used), s) := by
  have : ¬ idx < s.m_used := by omega
  simp [index_assign, validate_idx_else_throw, this]

theorem index_assign_not_threw_of_lt (s : HybridVector T N) (idx : Nat) (t : T)
    (h : idx < s.m_used) (e : OutOfRange) : (s.index_assign idx t).1 ≠ .threw e := by
  unfold index_assign
  simp only [validate_idx_else_throw, h, if_true]
  split
  · simp
  · split <;> simp

end HybridVector

/-- C2. `index(i)`, read or write form, throws the out-of-range error exactly when
`i ≥ length()`; so `index(length())` throws, and every index throws on an empty
container.  A read never changes the container, and a throwing write leaves it as it
was. -/
theorem index_throws_iff {T : Type} {N : Nat} (s : HybridVector T N) (i : Nat) (t : T) :
    ((∃ e, (s.index i).1 = .threw e) ↔ s.size ≤ i) ∧
    ((s.index i).1 = .threw (.index_out_of_range i s.size) ↔ s.size ≤ i) ∧
    ((∃ e, (s.index_assign i t).1 = .threw e) ↔ s.size ≤ i) ∧
    ((s.index_assign i t).1 = .threw (.index_out_of_range i s.size) ↔ s.size ≤ i) ∧
    (s.index s.size).1 = .threw (.index_out_of_range s.size s.size) ∧
    (s.size = 0 → (s.index i).1 = .threw (.index_out_of_range i 0)) ∧
    (s.index i).2 = s ∧
    (s.size ≤ i → (s.index_assign i t).2 = s) := by
  unfold HybridVector.size
  have hr : ∀ e, (s.index i).1 = .threw e → s.m_used ≤ i := by
    intro e he
    by_contra hlt
    exact HybridVector.index_not_threw_of_lt s i (by omega) e he
  have hw : ∀ e, (s.index_assign i t).1 = .threw e → s.m_used ≤ i := by
    intro e he
    by_contra hlt
    exact HybridVector.index_assign_not_threw_of_lt s i t (by omega) e he
  have tr : s.m_used ≤ i → (s.index i).1 = .threw (.index_out_of_range i s.m_used) := by
    intro h
    rw [HybridVector.index_threw_of_le s i h]
  have tw : s.m_used ≤ i → (s.index_assign i t).1 = .threw (.index_out_of_range i s.m_used) := by
    intro h
    rw [HybridVector.index_assign_threw_of_le s i t h]
  refine ⟨⟨fun ⟨e, he⟩ => hr e he, fun h => ⟨_, tr h⟩⟩, ⟨hr _, tr⟩,
    ⟨fun ⟨e, he⟩ => hw e he, fun h => ⟨_, tw h⟩⟩, ⟨hw _, tw⟩, ?_, ?_, ?_, ?_⟩
  · rw [HybridVector.index_threw_of_le s s.m_used (Nat.le_refl _)]
  · intro h0
    rw [HybridVector.index_threw_of_le s i (by omega), h0]
  · exact HybridVector.index_snd s i
  · intro h
    rw [HybridVector.index_assign_threw_of_le s i t h]

namespace HybridVector

variable {T : Type} {N : Nat}

theorem pop_back_empty [Inhabited T] (s : HybridVector T N) (h : s.m_used = 0) :
    s.pop_back = (.threw .is_empty, s) := by
  simp [pop_back, validate_nonempty_else_throw, h]

theorem pop_back_inline [Inhabited T] (s : HybridVector T N) (hpos : 0 < s.m_used)
    (h : s.m_used - 1 < N) :
    s.pop_back = (.ok (s.m_arr ⟨s.m_used - 1, h⟩),
      { m_used := s.m_used - 1, m_arr := Function.update s.m_arr ⟨s.m_used - 1, h⟩ default,
        m_vec := s.m_vec }) := by
  simp [pop_back, validate_nonempty_else_throw, hpos, h]

theorem pop_back_overflow [Inhabited T] (s : HybridVector T N) (hpos : 0 < s.m_used)
    (h : ¬ s.m_used - 1 < N) (t : T) (hb : s.m_vec.data.getLast? = some t) :
    s.pop_back = (.ok t,
      { m_used := s.m_used - 1, m_arr := s.m_arr, m_vec := s.m_vec.pop_back }) := by
  simp [pop_back, validate_nonempty_else_throw, hpos, h, StdVector.back, hb]

theorem pop_back_overflow_undefined [Inhabited T] (s : HybridVector T N) (hpos : 0 < s.m_used)
    (h : ¬ s.m_used - 1 < N) (hb : s.m_vec.data.getLast? = none) :
    s.pop_back = (.undefined, { s with m_used := s.m_used - 1 }) := by
  simp [pop_back, validate_nonempty_else_throw, hpos, h, StdVector.back, hb]

theorem pop_back_not_threw [Inhabited T] (s : HybridVector T N) (hpos : 0 < s.m_used)
    (e : OutOfRange) : s.pop_back.1 ≠ .threw e := by
  by_cases h : s.m_used - 1 < N
  · rw [pop_back_inline s hpos h]
    simp
  · cases hb : s.m_vec.data.getLast? with
    | none =>
      rw [pop_back_overflow_undefined s hpos h hb]
      simp
    | some t =>
      rw [pop_back_overflow s hpos h t hb]
      simp

end HybridVector

/-- C3. `pop_back()` throws the empty-container error exactly when `length() == 0`, and
the throwing call leaves the length, every inline slot and the overflow region as they
were. -/
theorem pop_back_throws_iff {T : Type} [Inhabited T] {N : Nat} (s : HybridVector T N) :
    ((∃ e, s.pop_back.1 = .threw e) ↔ s.size = 0) ∧
    (s.pop_back.1 = .threw .is_empty ↔ s.size = 0) ∧
    (s.size = 0 → s.pop_back.2 = s) := by
  unfold HybridVector.size
  have hne : ∀ e, s.pop_back.1 = .threw e → s.m_used = 0 := by
    intro e he
    by_contra h0
    exact HybridVector.pop_back_not_threw s (by omega) e he
  have hthrow : s.m_used = 0 → s.pop_back.1 = .threw .is_empty := by
    intro h
    rw [HybridVector.pop_back_empty s h]
  refine ⟨⟨fun ⟨e, he⟩ => hne e he, fun h => ⟨_, hthrow h⟩⟩, ⟨hne _, hthrow⟩, ?_⟩
  intro h
  rw [HybridVector.pop_back_empty s h]

/-- C4. With the overflow-length invariant and a positive length, `pop_back()` returns the
value `index(length() - 1)` returned before the call, lowers the length by one and keeps
`index(i)` for every `i` below the new length.  When the removed position is inline, its
slot holds the default value afterwards, the other slots and the overflow region are as
before; otherwise the overflow region loses its last element and the inline slots are as
before. -/
theorem pop_back_spec {T : Type} [Inhabited T] {N : Nat} (s : HybridVector T N)
    (hinv : s.overflow_length_inv) (hpos : 0 < s.size) :
    (∃ t, s.pop_back.1 = .ok t ∧ (s.index (s.size - 1)).1 = .ok t) ∧
    s.pop_back.2.size = s.size - 1 ∧
    (∀ i, i < s.size - 1 → (s.pop_back.2.index i).1 = (s.index i).1) ∧
    (∀ h : s.size - 1 < N,
      s.pop_back.2.m_arr ⟨s.size - 1, h⟩ = default ∧
      (∀ j : Fin N, j.val ≠ s.size - 1 → s.pop_back.2.m_arr j = s.m_arr j) ∧
      s.pop_back.2.m_vec = s.m_vec) ∧
    (N ≤ s.size - 1 →
      s.pop_back.2.m_vec.data = s.m_vec.data.dropLast ∧
      s.pop_back.2.m_vec.data.length + 1 = s.m_vec.data.length ∧
      s.pop_back.2.m_vec.cap = s.m_vec.cap ∧
      s.pop_back.2.m_arr = s.m_arr) := by
  unfold HybridVector.overflow_length_inv StdVector.size at hinv
  unfold HybridVector.size at *
  by_cases hlt : s.m_used - 1 < N
  · rw [HybridVector.pop_back_inline s hpos hlt]
    have hne : ∀ j : Fin N, j.val ≠ s.m_used - 1 → j ≠ ⟨s.m_used - 1, hlt⟩ :=
      fun j hj h => hj (congrArg Fin.val h)
    refine ⟨⟨_, rfl, ?_⟩, rfl, ?_, ?_, ?_⟩
    · rw [HybridVector.index_inline s _ (by omega) hlt]
    · intro i hi
      have hiN : i < N := by omega
      rw [HybridVector.index_inline _ _ hi hiN, HybridVector.index_inline s _ (by omega) hiN]
      simp only
      rw [Function.update_noteq (hne ⟨i, hiN⟩ (by simp; omega))]
    · intro h
      refine ⟨by simp, ?_, rfl⟩
      intro j hj
      simp only
      rw [Function.update_noteq (hne j hj)]
    · intro h
      omega
  · have hlen : s.m_vec.data.length - 1 < s.m_vec.data.length := by omega
    have hb : s.m_vec.data.getLast? = some (s.m_vec.data[s.m_vec.data.length - 1]) := by
      rw [List.getLast?_eq_getElem?]
      exact List.getElem?_eq_getElem hlen
    rw [HybridVector.pop_back_overflow s hpos hlt _ hb]
    refine ⟨⟨_, rfl, ?_⟩, rfl, ?_, ?_, ?_⟩
    · rw [HybridVector.index_overflow s _ (by omega) hlt (s.m_vec.data[s.m_vec.data.length - 1])]
      have : s.m_used - 1 - N = s.m_vec.data.length - 1 := by omega
      rw [this]
      exact List.getElem?_eq_getElem hlen
    · intro i hi
      by_cases hiN : i < N
      · rw [HybridVector.index_inline _ _ hi hiN, HybridVector.index_inline s _ (by omega) hiN]
      · have hb2 : i - N < s.m_vec.data.length := by omega
        rw [HybridVector.index_overflow _ _ hi hiN (s.m_vec.data[i - N]),
          HybridVector.index_overflow s _ (by omega) hiN (s.m_vec.data[i - N])]
        · exact List.getElem?_eq_getElem hb2
        · simp only [StdVector.pop_back]
          rw [List.getElem?_dropLast, if_pos (by omega)]
          exact List.getElem?_eq_getElem hb2
    · intro h
      exact absurd h hlt
    · intro _
      refine ⟨rfl, ?_, rfl, rfl⟩
      simp only [StdVector.pop_back, List.length_dropLast]
      omega

/-- Witness for C4 at `sample_three`: the removed element is the one in the overflow
region. -/
theorem pop_back_spec_witness :
    sample_three.overflow_length_inv ∧ 0 < sample_three.size ∧
      sample_three.pop_back.2.size = sample_three.size - 1 :=
  ⟨by decide, by decide, (pop_back_spec sample_three (by decide) (by decide)).2.1⟩

/-- C5. With both storage invariants, `pop_back()` right after `push_back(v)` returns `v`
and gives back the length, every inline slot and the overflow contents the container had
before the push. -/
theorem push_pop_round_trip {T : Type} [Inhabited T] {N : Nat} (P : GrowthPolicy)
    (s : HybridVector T N) (v : T)
    (_hinv : s.overflow_length_inv) (hreset : s.reset_slot_inv) :
    (s.push_back P v).pop_back.1 = .ok v ∧
    (s.push_back P v).pop_back.2.size = s.size ∧
    (s.push_back P v).pop_back.2.m_arr = s.m_arr ∧
    (s.push_back P v).pop_back.2.m_vec.data = s.m_vec.data := by
  unfold HybridVector.size
  by_cases hlt : s.m_used < N
  · have h1 : (s.push_back P v).m_used - 1 < N := by
      rw [HybridVector.push_back_m_used]
      omega
    rw [HybridVector.pop_back_inline _ (by rw [HybridVector.push_back_m_used]; omega) h1]
    simp only [HybridVector.push_back_inline P s v hlt, Nat.add_sub_cancel,
      Function.update_same, Function.update_idem, true_and]
    have := hreset ⟨s.m_used, hlt⟩ (Nat.le_refl _)
    rw [← this, Function.update_eq_self]
    exact ⟨rfl, trivial⟩
  · have h1 : ¬ (s.push_back P v).m_used - 1 < N := by
      rw [HybridVector.push_back_m_used]
      omega
    have hb : (s.push_back P v).m_vec.data.getLast? = some v := by
      rw [HybridVector.push_back_overflow P s v hlt]
      simp [StdVector.push_back]
    rw [HybridVector.pop_back_overflow _ (by rw [HybridVector.push_back_m_used]; omega) h1 v hb]
    simp [HybridVector.push_back_overflow P s v hlt, StdVector.push_back, StdVector.pop_back]

/-- Witness for C5 at `sample_one`: the push lands in the reset second slot. -/
theorem push_pop_round_trip_witness :
    sample_one.overflow_length_inv ∧ sample_one.reset_slot_inv ∧
      (sample_one.push_back doubling 5).pop_back.1 = .ok 5 :=
  ⟨by decide, by decide,
    (push_pop_round_trip doubling sample_one 5 (by decide) (by decide)).1⟩

/-! ## Invariants: established by the constructors, kept by the member functions -/

namespace StdVector

variable {T : Type}

theorem wf_push_back (P : GrowthPolicy) (v : StdVector T) (t : T) :
    (v.push_back P t).wf := by
  unfold wf
  simp only [push_back, List.length_append, List.length_singleton]
  split
  · omega
  · exact Nat.le_max_left _ _

theorem wf_reserve (P : GrowthPolicy) (v : StdVector T) (n : Nat) (h : v.wf) :
    (v.reserve P n).wf := by
  unfold wf at *
  unfold reserve
  split
  · have := Nat.le_max_left n (P.reserve_cap v.cap n)
    simp only
    omega
  · exact h

theorem reserve_data (P : GrowthPolicy) (v : StdVector T) (n : Nat) :
    (v.reserve P n).data = v.data := by
  unfold reserve
  split <;> rfl

theorem le_cap_reserve (P : GrowthPolicy) (v : StdVector T) (n : Nat) :
    v.cap ≤ (v.reserve P n).cap ∧ n ≤ (v.reserve P n).cap := by
  unfold reserve
  split
  · have := Nat.le_max_left n (P.reserve_cap v.cap n)
    simp only
    omega
  · omega

theorem wf_pop_back (v : StdVector T) (h : v.wf) : v.pop_back.wf := by
  unfold wf at *
  simp only [pop_back, List.length_dropLast]
  omega

end StdVector

namespace HybridVector

variable {T : Type} {N : Nat}

theorem index_ok_of_inv (s : HybridVector T N) (h : s.overflow_length_inv) (i : Nat)
    (hi : i < s.m_used) : ∃ t, s.index i = (.ok t, s) := by
  unfold overflow_length_inv StdVector.size at h
  by_cases hiN : i < N
  · exact ⟨_, index_inline s i hi hiN⟩
  · have hb : i - N < s.m_vec.data.length := by omega
    exact ⟨_, index_overflow s i hi hiN _ (List.getElem?_eq_getElem hb)⟩

theorem all_inv_ctor_default [Inhabited T] : (ctor_default : HybridVector T N).all_inv := by
  refine ⟨?_, ?_, ?_⟩
  · simp [overflow_length_inv, ctor_default, StdVector.size, StdVector.empty]
  · intro j _
    rfl
  · simp [ctor_default, StdVector.wf, StdVector.empty]

theorem all_inv_push_back [Inhabited T] (P : GrowthPolicy) (s : HybridVector T N) (t : T)
    (h : s.all_inv) : (s.push_back P t).all_inv := by
  obtain ⟨h1, h2, h3⟩ := h
  refine ⟨push_back_overflow_length_inv P s t h1, ?_, ?_⟩
  · intro j hj
    rw [push_back_m_used] at hj
    by_cases hlt : s.m_used < N
    · rw [push_back_inline P s t hlt]
      have hne : j ≠ ⟨s.m_used, hlt⟩ := by
        intro e
        have := congrArg Fin.val e
        simp at this
        omega
      simp only
      rw [Function.update_noteq hne]
      exact h2 j (by omega)
    · rw [push_back_overflow P s t hlt]
      exact h2 j (by omega)
  · by_cases hlt : s.m_used < N
    · rw [push_back_inline P s t hlt]
      exact h3
    · rw [push_back_overflow P s t hlt]
      exact StdVector.wf_push_back P _ t

theorem all_inv_push_back_all [Inhabited T] (P : GrowthPolicy) (xs : List T) :
    ∀ s : HybridVector T N, s.all_inv → (s.push_back_all P xs).all_inv := by
  induction xs with
  | nil => exact fun s h => h
  | cons x xs ih => exact fun s h => ih _ (all_inv_push_back P s x h)

theorem foldl_push_back_conv {V : Type} (P : GrowthPolicy) (conv : V → T) (xs : List V) :
    ∀ s : HybridVector T N,
      xs.foldl (fun s x => s.push_back P (conv x)) s = s.push_back_all P (xs.map conv) := by
  induction xs with
  | nil => exact fun s => rfl
  | cons x xs ih => exact fun s => ih _

theorem emplace_back_eq {A : Type} (P : GrowthPolicy) (brace_init paren_init : A → T)
    (s : HybridVector T N) (args : A) :
    s.emplace_back P brace_init paren_init args =
      s.push_back P (if s.m_used < N then brace_init args else paren_init args) := by
  unfold emplace_back push_back StdVector.emplace_back
  by_cases h : s.m_used < N <;> simp [h]

theorem all_inv_clear [Inhabited T] (s : HybridVector T N) : s.clear.all_inv := by
  refine ⟨?_, ?_, ?_⟩
  · simp [overflow_length_inv, clear, StdVector.size, StdVector.clear]
  · intro j _
    rfl
  · simp [clear, StdVector.wf, StdVector.clear]

theorem reserve_fields (P : GrowthPolicy) (s : HybridVector T N) (request : Nat) :
    (s.reserve P request).m_used = s.m_used ∧ (s.reserve P request).m_arr = s.m_arr ∧
    (s.reserve P request).m_vec.data = s.m_vec.data ∧
    s.m_vec.cap ≤ (s.reserve P request).m_vec.cap ∧
    (s.m_vec.wf → (s.reserve P request).m_vec.wf) := by
  unfold reserve
  split
  · exact ⟨rfl, rfl, rfl, Nat.le_refl _, id⟩
  · dsimp only
    split
    · exact ⟨rfl, rfl, StdVector.reserve_data P _ _, (StdVector.le_cap_reserve P _ _).1,
        StdVector.wf_reserve P _ _⟩
    · exact ⟨rfl, rfl, rfl, Nat.le_refl _, id⟩

theorem all_inv_reserve [Inhabited T] (P : GrowthPolicy) (s : HybridVector T N) (request : Nat)
    (h : s.all_inv) : (s.reserve P request).all_inv := by
  obtain ⟨h1, h2, h3⟩ := h
  obtain ⟨e1, e2, e3, -, e5⟩ := reserve_fields P s request
  refine ⟨?_, ?_, e5 h3⟩
  · unfold overflow_length_inv StdVector.size at *
    rw [e1, e3]
    exact h1
  · intro j hj
    rw [e1] at hj
    rw [e2]
    exact h2 j hj

theorem all_inv_pop_back [Inhabited T] (s : HybridVector T N) (h : s.all_inv) :
    s.pop_back.2.all_inv := by
  obtain ⟨h1, h2, h3⟩ := h
  by_cases h0 : s.m_used = 0
  · rw [pop_back_empty s h0]
    exact ⟨h1, h2, h3⟩
  · have hpos : 0 < s.m_used := by omega
    unfold overflow_length_inv StdVector.size at h1
    by_cases hlt : s.m_used - 1 < N
    · rw [pop_back_inline s hpos hlt]
      refine ⟨?_, ?_, h3⟩
      · unfold overflow_length_inv StdVector.size
        simp only
        omega
      · intro j hj
        simp only at hj ⊢
        by_cases hj2 : j = ⟨s.m_used - 1, hlt⟩
        · rw [hj2, Function.update_same]
        · rw [Function.update_noteq hj2]
          apply h2
          have : j.val ≠ s.m_used - 1 := fun e => hj2 (Fin.ext e)
          omega
    · have hlen : s.m_vec.data.length - 1 < s.m_vec.data.length := by omega
      have hb : s.m_vec.data.getLast? = some (s.m_vec.data[s.m_vec.data.length - 1]) := by
        rw [List.getLast?_eq_getElem?]
        exact List.getElem?_eq_getElem hlen
      rw [pop_back_overflow s hpos hlt _ hb]
      refine ⟨?_, ?_, StdVector.wf_pop_back _ h3⟩
      · unfold overflow_length_inv StdVector.size
        simp only [StdVector.pop_back, List.length_dropLast]
        omega
      · intro j hj
        exact absurd j.isLt (by simp only at hj; omega)

theorem all_inv_index_assign [Inhabited T] (s : HybridVector T N) (idx : Nat) (t : T)
    (h : s.all_inv) : (s.index_assign idx t).2.all_inv := by
  obtain ⟨h1, h2, h3⟩ := h
  by_cases hi : idx < s.m_used
  · unfold index_assign
    simp only [validate_idx_else_throw, hi, if_true]
    split
    · rename_i hN
      refine ⟨h1, ?_, h3⟩
      intro j hj
      have hne : j ≠ ⟨idx, hN⟩ := by
        intro e
        have := congrArg Fin.val e
        simp at this
        simp only at hj
        omega
      simp only
      rw [Function.update_noteq hne]
      exact h2 j hj
    · split
      · rename_i v hv
        unfold StdVector.assign at hv
        split at hv
        · cases hv
          refine ⟨?_, h2, ?_⟩
          · unfold overflow_length_inv StdVector.size at *
            simpa using h1
          · unfold StdVector.wf at *
            simpa using h3
        · cases hv
      · exact ⟨h1, h2, h3⟩
  · rw [index_assign_threw_of_le s idx t (by omega)]
    exact ⟨h1, h2, h3⟩

end HybridVector

namespace HybridVector

variable {T : Type} {N : Nat}

/-- Loop invariant of the cross-instantiation constructors: after the rounds `0 .. k-1`
the length field is untouched, the overflow region holds `k - N` elements, and the inline
slots from `k` on still hold the default value. -/
theorem ctor_cross_fold_inv [Inhabited T] {U : Type} {M : Nat} (P : GrowthPolicy)
    (assign_conv construct_conv : U → T) (other : HybridVector U M)
    (ho : other.overflow_length_inv) (s0 : HybridVector T N)
    (hdata : s0.m_vec.data = []) (hwf : s0.m_vec.wf) (harr : ∀ j, s0.m_arr j = default) :
    ∀ k, k ≤ other.m_used →
      ∃ s, (List.range k).foldl (ctor_cross_step P assign_conv construct_conv other) (.ok s0)
          = .ok s ∧
        s.m_used = s0.m_used ∧ s.m_vec.data.length = k - N ∧
        (∀ j : Fin N, k ≤ j.val → s.m_arr j = default) ∧ s.m_vec.wf := by
  intro k
  induction k with
  | zero =>
    intro _
    exact ⟨s0, rfl, rfl, by simp [hdata], fun j _ => harr j, hwf⟩
  | succ k ih =>
    intro hk
    obtain ⟨s, hs, hu, hlen, hslots, hw⟩ := ih (by omega)
    obtain ⟨u, hu2⟩ := index_ok_of_inv other ho k (by omega)
    rw [List.range_succ, List.foldl_append, hs]
    simp only [List.foldl_cons, List.foldl_nil, ctor_cross_step, hu2]
    by_cases hkN : k < N
    · rw [dif_pos hkN]
      refine ⟨_, rfl, hu, ?_, ?_, hw⟩
      · simp only
        omega
      · intro j hj
        have hne : j ≠ ⟨k, hkN⟩ := by
          intro e
          have := congrArg Fin.val e
          simp at this
          omega
        simp only
        rw [Function.update_noteq hne]
        exact hslots j (by omega)
    · rw [dif_neg hkN]
      refine ⟨_, rfl, hu, ?_, ?_, StdVector.wf_push_back P _ _⟩
      · simp only [StdVector.emplace_back, StdVector.push_back, List.length_append,
          List.length_singleton]
        omega
      · intro j hj
        exact hslots j (by omega)

theorem ctor_copy_ok [Inhabited T] {U : Type} {M : Nat} (P : GrowthPolicy)
    (assign_conv construct_conv : U → T) (other : HybridVector U M)
    (ho : other.overflow_length_inv) :
    ∃ s : HybridVector T N, ctor_copy P assign_conv construct_conv other = .ok s ∧
      s.m_used = other.m_used ∧ s.all_inv := by
  let s0 : HybridVector T N :=
    { m_used := other.m_used, m_arr := fun _ => default, m_vec := StdVector.empty }
  obtain ⟨e1, e2, e3, -, e5⟩ := reserve_fields P s0 other.m_used
  obtain ⟨s, hs, hu, hlen, hslots, hw⟩ :=
    ctor_cross_fold_inv P assign_conv construct_conv other ho (s0.reserve P other.m_used)
      (by rw [e3]; rfl) (e5 (by simp [s0, StdVector.wf, StdVector.empty]))
      (fun j => by rw [e2]) other.m_used (Nat.le_refl _)
  refine ⟨s, hs, by rw [hu, e1], ?_, ?_, hw⟩
  · unfold overflow_length_inv StdVector.size
    rw [hlen, hu, e1]
  · intro j hj
    rw [hu, e1] at hj
    exact hslots j hj

theorem ctor_move_ok [Inhabited T] {U : Type} [Inhabited U] {M : Nat} (P : GrowthPolicy)
    (assign_conv construct_conv : U → T) (other : HybridVector U M)
    (ho : other.overflow_length_inv) :
    ∃ s : HybridVector T N,
      ctor_move P assign_conv construct_conv other = .ok (s, other.clear) ∧
      ctor_copy P assign_conv construct_conv other = .ok s := by
  obtain ⟨s, hs, -, -⟩ := ctor_copy_ok (T := T) (N := N) P assign_conv construct_conv other ho
  refine ⟨s, ?_, hs⟩
  unfold ctor_copy at hs
  unfold ctor_move
  simp only at hs ⊢
  rw [hs]

end HybridVector

/-- Every reachable state satisfies the overflow-length invariant, the reset-slot
invariant and the overflow store's own invariant. -/
theorem reachable_all_inv (P : GrowthPolicy) {T : Type} [Inhabited T] {N : Nat}
    (s : HybridVector T N) (h : Reachable P T N s) : s.all_inv := by
  induction h with
  | ctor_default T N => exact HybridVector.all_inv_ctor_default
  | ctor_iter_pair T N conv range =>
    unfold HybridVector.ctor_iter_pair
    rw [HybridVector.foldl_push_back_conv]
    exact HybridVector.all_inv_push_back_all P _ _ HybridVector.all_inv_ctor_default
  | ctor_readable T N conv src =>
    unfold HybridVector.ctor_readable
    rw [HybridVector.foldl_push_back_conv]
    exact HybridVector.all_inv_push_back_all P _ _ HybridVector.all_inv_ctor_default
  | ctor_consumable T N conv xsrc =>
    unfold HybridVector.ctor_consumable
    simp only
    rw [HybridVector.foldl_push_back_conv]
    exact HybridVector.all_inv_push_back_all P _ _ HybridVector.all_inv_ctor_default
  | ctor_copy T N U M ac cc other s _ hs ih =>
    obtain ⟨s2, hs2, -, hinv⟩ := HybridVector.ctor_copy_ok (T := T) (N := N) P ac cc other ih.1
    rw [hs2] at hs
    cases hs
    exact hinv
  | ctor_move T N U M ac cc other other1 s _ hs ih =>
    obtain ⟨s2, hs2, -, hinv⟩ := HybridVector.ctor_copy_ok (T := T) (N := N) P ac cc other ih.1
    obtain ⟨s3, hm, hc⟩ := HybridVector.ctor_move_ok (T := T) (N := N) P ac cc other ih.1
    rw [hm] at hs
    rw [hs2] at hc
    cases hs
    cases hc
    exact hinv
  | moved_from T N U M ac cc other other1 s _ hs ih =>
    obtain ⟨s3, hm, -⟩ := HybridVector.ctor_move_ok (T := T) (N := N) P ac cc other ih.1
    rw [hm] at hs
    cases hs
    exact HybridVector.all_inv_clear other
  | push_back T N s t _ ih => exact HybridVector.all_inv_push_back P s t ih
  | emplace_back T N b p s args _ ih =>
    rw [HybridVector.emplace_back_eq]
    exact HybridVector.all_inv_push_back P s _ ih
  | pop_back T N s _ ih => exact HybridVector.all_inv_pop_back s ih
  | clear T N s _ ih => exact HybridVector.all_inv_clear s
  | reserve T N s request _ ih => exact HybridVector.all_inv_reserve P s request ih
  | index T N s idx _ ih =>
    rw [HybridVector.index_snd]
    exact ih
  | index_assign T N s idx t _ ih => exact HybridVector.all_inv_index_assign s idx t ih

/-- C6. The overflow-length invariant `overflow_region.length == max(0, length − N)` holds
in every reachable state: the default, iterator-pair, readable-source, consumable-source
and cross-instantiation copy and move constructors establish it, and `push_back`,
`emplace_back`, `pop_back` (returning or throwing), `clear`, `reserve` and `index`
(returning or throwing, read or write) keep it.  The body of a cross-instantiation copy
or move, run on a reachable container, always returns a container, which satisfies the
invariant, and the move leaves a cleared source that satisfies it too. -/
theorem overflow_length_inv_reachable (P : GrowthPolicy) {T : Type} [Inhabited T] {N : Nat}
    (s : HybridVector T N) (h : Reachable P T N s) :
    s.m_vec.size = s.m_used - N ∧
    ((s.m_vec.size : Int) = max 0 ((s.m_used : Int) - N)) ∧
    (∀ (T1 : Type) [Inhabited T1] (N1 : Nat) (assign_conv construct_conv : T → T1),
      ∃ d : HybridVector T1 N1,
        HybridVector.ctor_copy P assign_conv construct_conv s = .ok d ∧
        HybridVector.ctor_move P assign_conv construct_conv s = .ok (d, s.clear) ∧
        d.m_vec.size = d.m_used - N1 ∧
        s.clear.m_vec.size = s.clear.m_used - N) := by
  have h1 : s.m_vec.size = s.m_used - N := (reachable_all_inv P s h).1
  refine ⟨h1, ?_, ?_⟩
  · rw [h1]
    omega
  · intro T1 _ N1 ac cc
    obtain ⟨d, hd, -, hinv⟩ := HybridVector.ctor_copy_ok (T := T1) (N := N1) P ac cc s h1
    obtain ⟨d2, hm, hc⟩ := HybridVector.ctor_move_ok (T := T1) (N := N1) P ac cc s h1
    rw [hd] at hc
    cases hc
    exact ⟨d, hd, hm, hinv.1, (HybridVector.all_inv_clear s).1⟩

/-- Witness for C6: three appends to a fresh container with two inline slots. -/
theorem overflow_length_inv_reachable_witness :
    Reachable doubling Nat 2 sample_run_push ∧
      sample_run_push.m_vec.size = sample_run_push.m_used - 2 :=
  ⟨Reachable.push_back _ _ _ _ (Reachable.push_back _ _ _ _ (Reachable.push_back _ _ _ _
      (Reachable.ctor_default Nat 2))),
    (overflow_length_inv_reachable doubling sample_run_push
      (Reachable.push_back _ _ _ _ (Reachable.push_back _ _ _ _ (Reachable.push_back _ _ _ _
        (Reachable.ctor_default Nat 2))))).1⟩

/-- C7. The reset-slot invariant holds in every reachable state: when `length < N`, each
inline slot at an index from `length` up to `N - 1` holds the default value.  In
particular the slot a `pop_back` vacates holds the default value afterwards, and a write
through the mutable `index` changes no slot at or above the length. -/
theorem reset_slot_inv_reachable (P : GrowthPolicy) {T : Type} [Inhabited T] {N : Nat}
    (s : HybridVector T N) (h : Reachable P T N s) :
    (∀ j : Fin N, s.size ≤ j.val → s.m_arr j = default) ∧
    (∀ hN : s.size - 1 < N, 0 < s.size → s.pop_back.2.m_arr ⟨s.size - 1, hN⟩ = default) ∧
    (∀ (idx : Nat) (t : T) (j : Fin N), s.size ≤ j.val →
      (s.index_assign idx t).2.m_arr j = s.m_arr j) := by
  have hs := (reachable_all_inv P s h).2.1
  refine ⟨hs, ?_, ?_⟩
  · intro hN hpos
    have hp := (reachable_all_inv P _ (Reachable.pop_back T N s h)).2.1
    apply hp
    unfold HybridVector.size at hN hpos
    rw [HybridVector.pop_back_inline s hpos hN]
    exact Nat.le_refl _
  · intro idx t j hj
    have hp := (reachable_all_inv P _ (Reachable.index_assign T N s idx t h)).2.1
    by_cases hi : idx < s.m_used
    · rw [hs j hj]
      apply hp
      unfold HybridVector.index_assign
      simp only [HybridVector.validate_idx_else_throw, hi, if_true]
      split
      · exact hj
      · split <;> exact hj
    · rw [HybridVector.index_assign_threw_of_le s idx t (by omega)]

/-- Witness for C7: an append then a removal on a fresh container with two inline slots. -/
theorem reset_slot_inv_reachable_witness :
    Reachable doubling Nat 2 sample_run_pop ∧
      ∀ j : Fin 2, sample_run_pop.size ≤ j.val → sample_run_pop.m_arr j = default :=
  ⟨Reachable.pop_back _ _ _ (Reachable.push_back _ _ _ _ (Reachable.ctor_default Nat 2)),
    (reset_slot_inv_reachable doubling sample_run_pop
      (Reachable.pop_back _ _ _ (Reachable.push_back _ _ _ _ (Reachable.ctor_default Nat 2)))).1⟩

namespace HybridVector

variable {T : Type} {N : Nat}

theorem same_contents_index (s t : HybridVector T N) (h : s.same_contents t) (i : Nat) :
    (s.index i).1 = (t.index i).1 := by
  obtain ⟨h1, h2, h3⟩ := h
  unfold index validate_idx_else_throw StdVector.get
  rw [h1, h2, h3]
  split
  · rfl
  · split
    · rfl
    · split <;> rfl

theorem same_contents_push_back (P : GrowthPolicy) (s t : HybridVector T N)
    (h : s.same_contents t) (x : T) : (s.push_back P x).same_contents (t.push_back P x) := by
  obtain ⟨h1, h2, h3⟩ := h
  by_cases hlt : s.m_used < N
  · have hlt2 : t.m_used < N := h1 ▸ hlt
    rw [push_back_inline P s x hlt, push_back_inline P t x hlt2]
    refine ⟨by simp only [h1], ?_, h3⟩
    simp only [h1, h2]
  · have hlt2 : ¬ t.m_used < N := h1 ▸ hlt
    rw [push_back_overflow P s x hlt, push_back_overflow P t x hlt2]
    refine ⟨by simp only [h1], h2, ?_⟩
    simp only [StdVector.push_back, h3]

theorem same_contents_push_back_all (P : GrowthPolicy) (xs : List T) :
    ∀ s t : HybridVector T N, s.same_contents t →
      (s.push_back_all P xs).same_contents (t.push_back_all P xs) := by
  induction xs with
  | nil => exact fun _ _ h => h
  | cons x xs ih => exact fun s t h => ih _ _ (same_contents_push_back P s t h x)

end HybridVector

/-- C8. After `clear()` the length is `0`, each of the `N` inline slots holds the default
value and the overflow region is empty (its capacity is kept); so the cleared container
agrees with a default-constructed one in length, inline slots and overflow contents, and
every run of `push_back` calls gives the same `length()` and the same `index(i)` results
on both. -/
theorem clear_spec {T : Type} [Inhabited T] {N : Nat} (P : GrowthPolicy) (s : HybridVector T N) :
    s.clear.size = 0 ∧
    (∀ j : Fin N, s.clear.m_arr j = default) ∧
    s.clear.m_vec.data = [] ∧
    s.clear.m_vec.cap = s.m_vec.cap ∧
    s.clear.same_contents HybridVector.ctor_default ∧
    (∀ xs : List T,
      (s.clear.push_back_all P xs).size
        = ((HybridVector.ctor_default : HybridVector T N).push_back_all P xs).size ∧
      ∀ i, ((s.clear.push_back_all P xs).index i).1
        = (((HybridVector.ctor_default : HybridVector T N).push_back_all P xs).index i).1) := by
  have hsame : s.clear.same_contents HybridVector.ctor_default := ⟨rfl, rfl, rfl⟩
  refine ⟨rfl, fun _ => rfl, rfl, rfl, hsame, ?_⟩
  intro xs
  have h := HybridVector.same_contents_push_back_all P xs _ _ hsame
  exact ⟨h.1, fun i => HybridVector.same_contents_index _ _ h i⟩

namespace HybridVector

variable {T : Type} {N : Nat}

theorem reserve_of_le (P : GrowthPolicy) (s : HybridVector T N) (request : Nat)
    (h : request ≤ N) : s.reserve P request = s := by
  simp [reserve, reserve_request, h]

theorem reserve_of_gt (P : GrowthPolicy) (s : HybridVector T N) (request : Nat)
    (h : N < request) :
    s.reserve P request =
      if request - N > s.m_vec.cap then { s with m_vec := s.m_vec.reserve P (request - N) }
      else s := by
  have : ¬ request ≤ N := by omega
  simp [reserve, reserve_request, this, StdVector.capacity]

theorem le_capacity_reserve (P : GrowthPolicy) (s : HybridVector T N) (request : Nat) :
    request ≤ (s.reserve P request).capacity := by
  unfold capacity StdVector.capacity
  by_cases hle : request ≤ N
  · omega
  · rw [reserve_of_gt P s request (by omega)]
    split
    · have := (StdVector.le_cap_reserve P s.m_vec (request - N)).2
      simp only
      omega
    · omega

end HybridVector

/-- C9. `reserve(r)` keeps the length, every inline slot and the overflow contents; the
capacity afterwards is at least the capacity before and at least `r`; when `r ≤ N`, or
`r - N` is within the overflow capacity, the container is left exactly as it was.  The
amount handed to the overflow store is computed only when `N < r`, and then it is the
exact difference. -/
theorem reserve_spec {T : Type} {N : Nat} (P : GrowthPolicy) (s : HybridVector T N) (r : Nat) :
    (s.reserve P r).size = s.size ∧
    (s.reserve P r).m_arr = s.m_arr ∧
    (s.reserve P r).m_vec.data = s.m_vec.data ∧
    s.capacity ≤ (s.reserve P r).capacity ∧
    r ≤ (s.reserve P r).capacity ∧
    (r ≤ N ∨ r - N ≤ s.m_vec.capacity → s.reserve P r = s) ∧
    (∀ q, HybridVector.reserve_request N r = some q → N < r ∧ q + N = r) := by
  obtain ⟨e1, e2, e3, e4, -⟩ := HybridVector.reserve_fields P s r
  unfold HybridVector.capacity StdVector.capacity HybridVector.size
  have hcap := HybridVector.le_capacity_reserve P s r
  unfold HybridVector.capacity StdVector.capacity at hcap
  refine ⟨e1, e2, e3, by omega, hcap, ?_, ?_⟩
  · intro h
    by_cases hle : r ≤ N
    · exact HybridVector.reserve_of_le P s r hle
    · rw [HybridVector.reserve_of_gt P s r (by omega)]
      have : ¬ r - N > s.m_vec.cap := by omega
      rw [if_neg this]
  · intro q hq
    unfold HybridVector.reserve_request at hq
    split at hq
    · cases hq
    · cases hq
      omega

/-- C10. In every reachable state `capacity()` is `N` plus the overflow region's capacity,
it is at least `N` and at least `length()`; and some reachable state has a capacity
strictly above its length. -/
theorem capacity_bounds (P : GrowthPolicy) {T : Type} [Inhabited T] {N : Nat}
    (s : HybridVector T N) (h : Reachable P T N s) :
    s.capacity = N + s.m_vec.capacity ∧
    N ≤ s.capacity ∧
    s.size ≤ s.capacity ∧
    ∃ s1 : HybridVector T N, Reachable P T N s1 ∧ s1.size < s1.capacity := by
  obtain ⟨h1, -, h3⟩ := reachable_all_inv P s h
  unfold HybridVector.overflow_length_inv StdVector.size at h1
  unfold StdVector.wf at h3
  unfold HybridVector.capacity HybridVector.size StdVector.capacity
  refine ⟨rfl, by omega, by omega, ?_⟩
  refine ⟨HybridVector.ctor_default.reserve P (N + 1),
    Reachable.reserve T N _ _ (Reachable.ctor_default T N), ?_⟩
  have h5 := HybridVector.le_capacity_reserve P (HybridVector.ctor_default : HybridVector T N)
    (N + 1)
  have h0 := (HybridVector.reserve_fields P (HybridVector.ctor_default : HybridVector T N)
    (N + 1)).1
  unfold HybridVector.capacity StdVector.capacity at h5
  rw [h0]
  have : (HybridVector.ctor_default : HybridVector T N).m_used = 0 := rfl
  omega

/-- Witness for C10: after three appends at `N = 2` the capacity covers the length. -/
theorem capacity_bounds_witness :
    Reachable doubling Nat 2 sample_run_push ∧ sample_run_push.size ≤ sample_run_push.capacity :=
  ⟨Reachable.push_back _ _ _ _ (Reachable.push_back _ _ _ _ (Reachable.push_back _ _ _ _
      (Reachable.ctor_default Nat 2))),
    (capacity_bounds doubling sample_run_push
      (Reachable.push_back _ _ _ _ (Reachable.push_back _ _ _ _ (Reachable.push_back _ _ _ _
        (Reachable.ctor_default Nat 2))))).2.2.1⟩

/-! ## Construction from a sequence -/

namespace HybridVector

variable {T : Type} {N : Nat}

theorem push_back_all_append (P : GrowthPolicy) (s : HybridVector T N) (xs : List T) (x : T) :
    s.push_back_all P (xs ++ [x]) = (s.push_back_all P xs).push_back P x := by
  simp [push_back_all, List.foldl_append]

/-- Contents of a fresh container after a run of appends: the values fill the inline
slots first, the rest go to the overflow region in order. -/
theorem push_back_all_ctor_default [Inhabited T] (P : GrowthPolicy) (ys : List T) :
    ((ctor_default : HybridVector T N).push_back_all P ys).m_used = ys.length ∧
    (∀ j : Fin N, ((ctor_default : HybridVector T N).push_back_all P ys).m_arr j
      = ys[j.val]?.getD default) ∧
    ((ctor_default : HybridVector T N).push_back_all P ys).m_vec.data = ys.drop N := by
  induction ys using List.reverseRecOn with
  | nil => exact ⟨rfl, fun _ => rfl, by simp [push_back_all, ctor_default, StdVector.empty]⟩
  | append_singleton ys y ih =>
    obtain ⟨h1, h2, h3⟩ := ih
    rw [push_back_all_append]
    by_cases hlt : ((ctor_default : HybridVector T N).push_back_all P ys).m_used < N
    · rw [push_back_inline P _ y hlt]
      have hlt2 : ys.length < N := h1 ▸ hlt
      refine ⟨by simp [h1], ?_, ?_⟩
      · intro j
        simp only
        by_cases hj : j = ⟨_, hlt⟩
        · rw [hj, Function.update_same]
          simp [h1]
        · rw [Function.update_noteq hj, h2 j]
          have hne : j.val ≠ ys.length := by
            intro e
            exact hj (Fin.ext (by simp [e, h1]))
          by_cases hjl : j.val < ys.length
          · rw [List.getElem?_append_left hjl]
          · rw [List.getElem?_eq_none (by omega), List.getElem?_eq_none (by simp; omega)]
      · simp only
        rw [h3, List.drop_eq_nil_of_le (by omega), List.drop_eq_nil_of_le (by simp; omega)]
    · rw [push_back_overflow P _ y hlt]
      have hge : N ≤ ys.length := by omega
      refine ⟨by simp [h1], ?_, ?_⟩
      · intro j
        simp only
        rw [h2 j, List.getElem?_append_left (by omega)]
      · simp only [StdVector.push_back]
        rw [h3, List.drop_append_of_le_length hge]

theorem ctor_default_push_back_all_index [Inhabited T] (P : GrowthPolicy) (ys : List T)
    (i : Nat) (hi : i < ys.length) :
    (((ctor_default : HybridVector T N).push_back_all P ys).index i).1 = .ok ys[i] := by
  have h := (push_back_all_step P ys (ctor_default : HybridVector T N)
    all_inv_ctor_default.1).2.2.2 i hi
  have h0 : (ctor_default : HybridVector T N).size = 0 := rfl
  rw [h0, Nat.zero_add] at h
  exact h

end HybridVector

/-- C11. A container built from a finite sequence `xs`, by iterator pair or from a readable
source, has length `|xs|` and `index(i)` returns (the element-type conversion of) `xs[i]`
for every `i < |xs|`; the first `min(|xs|, N)` values are in the inline slots, the rest in
the overflow region in order, the remaining inline slots hold the default value.  It is
the container obtained by default construction followed by `push_back` of each element
in order. -/
theorem ctor_from_sequence_spec {T : Type} [Inhabited T] {N : Nat} {V : Type}
    (P : GrowthPolicy) (conv : V → T) (xs : List V) :
    (HybridVector.ctor_iter_pair P conv xs : HybridVector T N)
      = HybridVector.ctor_default.push_back_all P (xs.map conv) ∧
    (HybridVector.ctor_readable P conv xs : HybridVector T N)
      = HybridVector.ctor_default.push_back_all P (xs.map conv) ∧
    (HybridVector.ctor_iter_pair P conv xs : HybridVector T N).size = xs.length ∧
    (∀ (i : Nat) (hi : i < xs.length),
      ((HybridVector.ctor_iter_pair P conv xs : HybridVector T N).index i).1
        = .ok (conv xs[i])) ∧
    (∀ (j : Fin N) (hj : j.val < xs.length),
      (HybridVector.ctor_iter_pair P conv xs : HybridVector T N).m_arr j = conv xs[j.val]) ∧
    (∀ j : Fin N, xs.length ≤ j.val →
      (HybridVector.ctor_iter_pair P conv xs : HybridVector T N).m_arr j = default) ∧
    (HybridVector.ctor_iter_pair P conv xs : HybridVector T N).m_vec.data
      = (xs.drop N).map conv := by
  have e1 : (HybridVector.ctor_iter_pair P conv xs : HybridVector T N)
      = HybridVector.ctor_default.push_back_all P (xs.map conv) :=
    HybridVector.foldl_push_back_conv P conv xs _
  have e2 : (HybridVector.ctor_readable P conv xs : HybridVector T N)
      = HybridVector.ctor_default.push_back_all P (xs.map conv) :=
    HybridVector.foldl_push_back_conv P conv xs _
  obtain ⟨h1, h2, h3⟩ := HybridVector.push_back_all_ctor_default (T := T) (N := N) P (xs.map conv)
  refine ⟨e1, e2, ?_, ?_, ?_, ?_, ?_⟩
  · rw [e1]
    unfold HybridVector.size
    rw [h1, List.length_map]
  · intro i hi
    rw [e1, HybridVector.ctor_default_push_back_all_index P _ i (by simpa using hi)]
    simp
  · intro j hj
    rw [e1, h2 j]
    simp [List.getElem?_eq_getElem hj]
  · intro j hj
    rw [e1, h2 j, List.getElem?_eq_none (by simpa using hj)]
    rfl
  · rw [e1, h3, List.map_drop]

/-- C12. A container built from a consumable source holding `xs` has length `|xs|` and
`index(i)` returns (the conversion of) the original `xs[i]`, and the source is left
empty.  With `N = 2` and three elements: length `3`, two values inline, one in the
overflow region, source of length `0`. -/
theorem ctor_consumable_spec {T : Type} [Inhabited T] {N : Nat} {V : Type}
    (P : GrowthPolicy) (conv : V → T) (xs : List V) :
    (HybridVector.ctor_consumable P conv xs : HybridVector T N × List V).1.size = xs.length ∧
    (∀ (i : Nat) (hi : i < xs.length),
      ((HybridVector.ctor_consumable P conv xs : HybridVector T N × List V).1.index i).1
        = .ok (conv xs[i])) ∧
    (HybridVector.ctor_consumable P conv xs : HybridVector T N × List V).2.length = 0 ∧
    (∀ a b c : V,
      (HybridVector.ctor_consumable P conv [a, b, c] : HybridVector T 2 × List V).1.size = 3 ∧
      (HybridVector.ctor_consumable P conv [a, b, c] : HybridVector T 2 × List V).1.m_arr 0
        = conv a ∧
      (HybridVector.ctor_consumable P conv [a, b, c] : HybridVector T 2 × List V).1.m_arr 1
        = conv b ∧
      (HybridVector.ctor_consumable P conv [a, b, c] : HybridVector T 2 × List V).1.m_vec.data
        = [conv c] ∧
      (HybridVector.ctor_consumable P conv [a, b, c] : HybridVector T 2 × List V).2.length
        = 0) := by
  have e1 : ∀ (M : Nat) (ys : List V),
      (HybridVector.ctor_consumable P conv ys : HybridVector T M × List V).1
        = HybridVector.ctor_default.push_back_all P (ys.map conv) :=
    fun M ys => HybridVector.foldl_push_back_conv P conv ys _
  refine ⟨?_, ?_, rfl, ?_⟩
  · rw [e1]
    unfold HybridVector.size
    rw [(HybridVector.push_back_all_ctor_default (T := T) (N := N) P (xs.map conv)).1,
      List.length_map]
  · intro i hi
    rw [e1, HybridVector.ctor_default_push_back_all_index P _ i (by simpa using hi)]
    simp
  · intro a b c
    obtain ⟨h1, h2, h3⟩ :=
      HybridVector.push_back_all_ctor_default (T := T) (N := 2) P ([a, b, c].map conv)
    refine ⟨?_, ?_, ?_, ?_, rfl⟩
    · rw [e1]
      exact h1
    · rw [e1, h2 0]
      rfl
    · rw [e1, h2 1]
      rfl
    · rw [e1, h3]
      rfl

/-! ## Cross-instantiation copy and move -/

namespace HybridVector

variable {T : Type} {N : Nat}

theorem to_list_length (s : HybridVector T N) (h : s.overflow_length_inv) :
    s.to_list.length = s.m_used := by
  unfold overflow_length_inv StdVector.size at h
  simp only [to_list, List.length_append, List.length_take, List.length_ofFn]
  omega

theorem index_to_list (s : HybridVector T N) (h : s.overflow_length_inv) (i : Nat)
    (hi : i < s.m_used) : ∃ t, s.to_list[i]? = some t ∧ s.index i = (.ok t, s) := by
  unfold overflow_length_inv StdVector.size at h
  by_cases hiN : i < N
  · refine ⟨s.m_arr ⟨i, hiN⟩, ?_, index_inline s i hi hiN⟩
    unfold to_list
    rw [List.getElem?_append_left (by simp; omega), List.getElem?_take_of_lt hi,
      List.getElem?_eq_getElem (by simp; omega)]
    simp
  · have hb : i - N < s.m_vec.data.length := by omega
    refine ⟨s.m_vec.data[i - N], ?_, index_overflow s i hi hiN _ (List.getElem?_eq_getElem hb)⟩
    unfold to_list
    rw [List.getElem?_append_right (by simp; omega)]
    have : i - (List.take s.m_used (List.ofFn s.m_arr)).length = i - N := by
      simp
      omega
    rw [this]
    exact List.getElem?_eq_getElem hb

/-- Loop invariant of the cross-instantiation constructors, with the contents: after the
rounds `0 .. k-1` the destination holds the conversions of the first `k` source values,
placed by the destination's own boundary. -/
theorem ctor_cross_fold_contents [Inhabited T] {U : Type} {M : Nat} (P : GrowthPolicy)
    (assign_conv construct_conv : U → T) (other : HybridVector U M)
    (ho : other.overflow_length_inv) (s0 : HybridVector T N)
    (hdata : s0.m_vec.data = []) (harr : ∀ j, s0.m_arr j = default) :
    ∀ k, k ≤ other.m_used →
      ∃ s, (List.range k).foldl (ctor_cross_step P assign_conv construct_conv other) (.ok s0)
          = .ok s ∧
        s.m_used = s0.m_used ∧
        (∀ j : Fin N,
          s.m_arr j = (((other.to_list.take k)[j.val]?).map assign_conv).getD default) ∧
        s.m_vec.data = ((other.to_list.take k).drop N).map construct_conv := by
  intro k
  induction k with
  | zero =>
    intro _
    exact ⟨s0, rfl, rfl, fun j => by simp [harr j], by simp [hdata]⟩
  | succ k ih =>
    intro hk
    obtain ⟨s, hs, hu, harr2, hvec⟩ := ih (by omega)
    obtain ⟨u, hul, hu2⟩ := index_to_list other ho k (by omega)
    have hlen : (other.to_list.take k).length = k := by
      rw [List.length_take, to_list_length other ho]
      omega
    have htake : other.to_list.take (k + 1) = other.to_list.take k ++ [u] := by
      rw [List.take_succ, hul]
      rfl
    rw [List.range_succ, List.foldl_append, hs, htake]
    simp only [List.foldl_cons, List.foldl_nil, ctor_cross_step, hu2]
    by_cases hkN : k < N
    · rw [dif_pos hkN]
      refine ⟨_, rfl, hu, ?_, ?_⟩
      · intro j
        simp only
        by_cases hj : j = ⟨k, hkN⟩
        · rw [hj, Function.update_same]
          simp only
          rw [List.getElem?_append_right (by omega), hlen]
          simp
        · rw [Function.update_noteq hj, harr2 j]
          have hne : j.val ≠ k := fun e => hj (Fin.ext e)
          by_cases hjl : j.val < k
          · rw [List.getElem?_append_left (by omega)]
          · rw [List.getElem?_eq_none (by omega), List.getElem?_eq_none (by simp; omega)]
      · simp only
        rw [hvec, List.drop_eq_nil_of_le (by omega), List.drop_eq_nil_of_le (by simp; omega)]
    · rw [dif_neg hkN]
      refine ⟨_, rfl, hu, ?_, ?_⟩
      · intro j
        simp only
        rw [harr2 j, List.getElem?_append_left (by omega)]
      · simp only [StdVector.emplace_back, StdVector.push_back]
        rw [hvec, List.drop_append_of_le_length (by omega)]
        simp

theorem ctor_copy_contents [Inhabited T] {U : Type} {M : Nat} (P : GrowthPolicy)
    (assign_conv construct_conv : U → T) (other : HybridVector U M)
    (ho : other.overflow_length_inv) :
    ∃ d : HybridVector T N, ctor_copy P assign_conv construct_conv other = .ok d ∧
      d.m_used = other.m_used ∧
      (∀ j : Fin N, d.m_arr j = ((other.to_list[j.val]?).map assign_conv).getD default) ∧
      d.m_vec.data = (other.to_list.drop N).map construct_conv := by
  let s0 : HybridVector T N :=
    { m_used := other.m_used, m_arr := fun _ => default, m_vec := StdVector.empty }
  obtain ⟨e1, e2, e3, -, -⟩ := reserve_fields P s0 other.m_used
  obtain ⟨d, hd, hu, harr, hvec⟩ :=
    ctor_cross_fold_contents P assign_conv construct_conv other ho (s0.reserve P other.m_used)
      (by rw [e3]; rfl) (fun j => by rw [e2]) other.m_used (Nat.le_refl _)
  have hall : other.to_list.take other.m_used = other.to_list :=
    List.take_of_length_le (by rw [to_list_length other ho])
  rw [hall] at harr hvec
  exact ⟨d, hd, by rw [hu, e1], harr, hvec⟩

end HybridVector

/-- C14, at the failing input: the specification's example, a `HybridVector<int, 2>` of
length 5 copied into a `HybridVector<int, 8>`.  The constructor reads the private
`other.m_used` of another class, so the construction is ill-formed; and for no pair of
classes does the body of the copying cross-instantiation constructor run. -/
theorem cross_copy_is_ill_formed :
    sample_five.size = 5 ∧
    HybridVector.other_m_used_accessible true 2 8 = false ∧
    (HybridVector.construct_cross_copy true sample_five : Built (Outcome (HybridVector Nat 8)))
      = .ill_formed ∧
    (∀ (M N : Nat) (b : Bool), M ≠ N → HybridVector.other_m_used_accessible b M N = false) ∧
    (∀ (T U : Type) (M N : Nat) (b : Bool) (other : HybridVector U M)
      (r : Outcome (HybridVector T N)),
      (HybridVector.construct_cross_copy b other : Built (Outcome (HybridVector T N))) ≠ .ran r) := by
  refine ⟨rfl, rfl, rfl, ?_, ?_⟩
  · intro M N b h
    simp [HybridVector.other_m_used_accessible, h]
  · intro T U M N b other r
    unfold HybridVector.construct_cross_copy
    split <;> simp

/-- C15, at the failing input: a `HybridVector<int, 2>` of length 5 moved into a
`HybridVector<int, 8>`.  The constructor reads the private `other.m_used` of another
class, so the construction is ill-formed, as it is whenever the two inline capacities
differ.  Moved into a `HybridVector<int, 2>`, the same class, the body runs, returns a
container of length 5 and leaves the source cleared. -/
theorem cross_move_is_ill_formed :
    (HybridVector.construct_cross_move doubling true id id sample_five :
      Built (Outcome (HybridVector Nat 8 × HybridVector Nat 2))) = .ill_formed ∧
    (∀ (T U : Type) [Inhabited T] [Inhabited U] (M N : Nat) (P : GrowthPolicy) (b : Bool)
      (assign_conv construct_conv : U → T) (other : HybridVector U M), M ≠ N →
      (HybridVector.construct_cross_move P b assign_conv construct_conv other :
        Built (Outcome (HybridVector T N × HybridVector U M))) = .ill_formed) ∧
    (∃ d : HybridVector Nat 2,
      (HybridVector.construct_cross_move doubling true id id sample_five :
        Built (Outcome (HybridVector Nat 2 × HybridVector Nat 2)))
        = .ran (.ok (d, sample_five.clear)) ∧
      d.size = 5 ∧ sample_five.clear.size = 0) := by
  refine ⟨rfl, ?_, ?_⟩
  · intro T U _ _ M N P b ac cc other h
    simp [HybridVector.construct_cross_move, HybridVector.other_m_used_accessible, h]
  · obtain ⟨d, hd, hu, -⟩ :=
      HybridVector.ctor_copy_ok (T := Nat) (N := 2) doubling id id sample_five (by decide)
    obtain ⟨d2, hm, hc⟩ :=
      HybridVector.ctor_move_ok (T := Nat) (N := 2) doubling id id sample_five (by decide)
    rw [hd] at hc
    cases hc
    refine ⟨d, ?_, hu, rfl⟩
    simp [HybridVector.construct_cross_move, HybridVector.other_m_used_accessible, hm]

/-! ## The overflow store while the container fits inline, and after a reservation -/

namespace HybridVector

variable {T : Type} {N : Nat}

theorem pop_back_m_vec_of_le [Inhabited T] (s : HybridVector T N) (h : s.m_used ≤ N) :
    s.pop_back.2.m_vec = s.m_vec := by
  by_cases h0 : s.m_used = 0
  · rw [pop_back_empty s h0]
  · rw [pop_back_inline s (by omega) (by omega)]

theorem pop_back_m_used_le [Inhabited T] (s : HybridVector T N) :
    s.pop_back.2.m_used ≤ s.m_used := by
  unfold pop_back
  split
  · exact Nat.le_refl _
  · dsimp only
    split
    · exact Nat.sub_le _ _
    · split <;> exact Nat.sub_le _ _

theorem index_assign_m_vec_of_le (s : HybridVector T N) (idx : Nat) (t : T)
    (h : s.m_used ≤ N) :
    (s.index_assign idx t).2.m_vec = s.m_vec ∧ (s.index_assign idx t).2.m_used = s.m_used := by
  by_cases hi : idx < s.m_used
  · have hN : idx < N := by omega
    simp [index_assign, validate_idx_else_throw, hi, hN]
  · rw [index_assign_threw_of_le s idx t (by omega)]
    exact ⟨rfl, rfl⟩

theorem call_run_m_vec [Inhabited T] {A : Type} (P : GrowthPolicy) (brace_init paren_init : A → T)
    (s : HybridVector T N) (c : Call T A) (h1 : s.m_used ≤ N)
    (h2 : (c.run P brace_init paren_init s).m_used ≤ N) :
    (c.run P brace_init paren_init s).m_vec = s.m_vec := by
  cases c with
  | push_back t =>
    simp only [Call.run] at h2 ⊢
    rw [push_back_m_used] at h2
    rw [push_back_inline P s t (by omega)]
  | emplace_back args =>
    simp only [Call.run] at h2 ⊢
    rw [emplace_back_eq] at h2 ⊢
    rw [push_back_m_used] at h2
    rw [push_back_inline P s _ (by omega)]
  | pop_back => exact pop_back_m_vec_of_le s h1
  | index idx =>
    simp only [Call.run]
    rw [index_snd]
  | index_assign idx t => exact (index_assign_m_vec_of_le s idx t h1).1

theorem run_calls_m_vec [Inhabited T] {A : Type} (P : GrowthPolicy)
    (brace_init paren_init : A → T) (cs : List (Call T A)) :
    ∀ s : HybridVector T N, fits_inline P brace_init paren_init s cs →
      (run_calls P brace_init paren_init s cs).m_vec = s.m_vec ∧
      (run_calls P brace_init paren_init s cs).m_used ≤ N := by
  induction cs with
  | nil => exact fun s h => ⟨rfl, h⟩
  | cons c cs ih =>
    intro s h
    obtain ⟨h1, h2⟩ := h
    have hnext : (c.run P brace_init paren_init s).m_used ≤ N := by
      cases cs with
      | nil => exact h2
      | cons c2 cs2 => exact h2.1
    obtain ⟨e1, e2⟩ := ih _ h2
    have hfold : run_calls P brace_init paren_init s (c :: cs)
        = run_calls P brace_init paren_init (c.run P brace_init paren_init s) cs := rfl
    rw [hfold, e1, call_run_m_vec P brace_init paren_init s c h1 hnext]
    exact ⟨rfl, e2⟩

/-- Appends that stay within the capacity never change it. -/
theorem push_back_all_capacity (P : GrowthPolicy) (xs : List T) :
    ∀ s : HybridVector T N, s.overflow_length_inv → s.m_used + xs.length ≤ s.capacity →
      (s.push_back_all P xs).m_vec.cap = s.m_vec.cap := by
  induction xs with
  | nil => exact fun _ _ _ => rfl
  | cons x xs ih =>
    intro s hinv hcap
    have hfold : s.push_back_all P (x :: xs) = (s.push_back P x).push_back_all P xs := rfl
    have hinv2 := push_back_overflow_length_inv P s x hinv
    unfold overflow_length_inv StdVector.size at hinv
    unfold capacity StdVector.capacity at hcap
    rw [List.length_cons] at hcap
    have hcap1 : (s.push_back P x).m_vec.cap = s.m_vec.cap := by
      by_cases hlt : s.m_used < N
      · rw [push_back_inline P s x hlt]
      · rw [push_back_overflow P s x hlt]
        simp only [StdVector.push_back]
        rw [if_pos (by omega)]
    rw [hfold, ih (s.push_back P x) hinv2, hcap1]
    unfold capacity StdVector.capacity
    rw [hcap1, push_back_m_used]
    omega

end HybridVector

/-- C17. While the container fits inline the overflow store is not touched: with
`length < N`, `push_back` and `emplace_back` leave the overflow region (contents and
capacity) as it is; with `length ≤ N`, so do `pop_back` and `reserve(r)` for `r ≤ N`.
Hence after any sequence of `push_back`, `emplace_back`, `pop_back` and `index` calls on a
default-constructed container during which the length never exceeds `N`, the overflow
region is empty with its initial capacity; and a `push_back` at `length == N` appends
to it. -/
theorem inline_leaves_overflow_untouched {T A : Type} [Inhabited T] {N : Nat}
    (P : GrowthPolicy) (brace_init paren_init : A → T) (s : HybridVector T N) :
    (s.size < N → ∀ t, (s.push_back P t).m_vec = s.m_vec) ∧
    (s.size < N → ∀ args, (s.emplace_back P brace_init paren_init args).m_vec = s.m_vec) ∧
    (s.size ≤ N → s.pop_back.2.m_vec = s.m_vec) ∧
    (∀ r, r ≤ N → (s.reserve P r).m_vec = s.m_vec) ∧
    (∀ cs : List (Call T A),
      fits_inline P brace_init paren_init (HybridVector.ctor_default : HybridVector T N) cs →
      (run_calls P brace_init paren_init (HybridVector.ctor_default : HybridVector T N) cs).m_vec
        = StdVector.empty) ∧
    (∀ cs : List (Call T A),
      fits_inline P brace_init paren_init (HybridVector.ctor_default : HybridVector T N) cs →
      (run_calls P brace_init paren_init (HybridVector.ctor_default : HybridVector T N) cs).size
        = N →
      ∀ t, ((run_calls P brace_init paren_init
          (HybridVector.ctor_default : HybridVector T N) cs).push_back P t).m_vec.data = [t]) ∧
    (s.size = N → ∀ t, (s.push_back P t).m_vec.data = s.m_vec.data ++ [t]) := by
  unfold HybridVector.size
  refine ⟨?_, ?_, ?_, ?_, ?_, ?_, ?_⟩
  · intro h t
    rw [HybridVector.push_back_inline P s t h]
  · intro h args
    rw [HybridVector.emplace_back_eq, HybridVector.push_back_inline P s _ h]
  · exact HybridVector.pop_back_m_vec_of_le s
  · intro r hr
    rw [HybridVector.reserve_of_le P s r hr]
  · intro cs h
    exact (HybridVector.run_calls_m_vec P brace_init paren_init cs _ h).1
  · intro cs h hN t
    have hv := (HybridVector.run_calls_m_vec P brace_init paren_init cs _ h).1
    rw [HybridVector.push_back_overflow P _ t (by omega)]
    simp only [StdVector.push_back]
    rw [hv]
    rfl
  · intro h t
    rw [HybridVector.push_back_overflow P s t (by omega)]
    rfl

/-- C18. After `reserve(r)` on a reachable state with `r ≥ length()`, any run of at most
`r - length()` appends leaves `capacity()` at the value it had right after the
reservation, and that value is at least `r`.  With `N = 2`: `reserve(100)` on an empty
container followed by 100 appends puts 2 values inline and 98 in the overflow region,
with `capacity()` unchanged since the reservation and at least `100`. -/
theorem reserve_is_sufficient (P : GrowthPolicy) {T : Type} [Inhabited T] {N : Nat}
    (s : HybridVector T N) (h : Reachable P T N s) (r : Nat) (hr : s.size ≤ r) :
    (∀ xs : List T, xs.length ≤ r - s.size →
      ((s.reserve P r).push_back_all P xs).capacity = (s.reserve P r).capacity ∧
      r ≤ ((s.reserve P r).push_back_all P xs).capacity) ∧
    (∀ xs : List T, xs.length = 100 →
      (((HybridVector.ctor_default : HybridVector T 2).reserve P 100).push_back_all P xs).size
        = 100 ∧
      (((HybridVector.ctor_default : HybridVector T 2).reserve P 100).push_back_all P xs).m_arr 0
        = xs[0]?.getD default ∧
      (((HybridVector.ctor_default : HybridVector T 2).reserve P 100).push_back_all P xs).m_arr 1
        = xs[1]?.getD default ∧
      (((HybridVector.ctor_default : HybridVector T 2).reserve P 100).push_back_all P
        xs).m_vec.data = xs.drop 2 ∧
      (((HybridVector.ctor_default : HybridVector T 2).reserve P 100).push_back_all P
        xs).m_vec.data.length = 98 ∧
      (((HybridVector.ctor_default : HybridVector T 2).reserve P 100).push_back_all P
        xs).capacity = ((HybridVector.ctor_default : HybridVector T 2).reserve P 100).capacity ∧
      100 ≤ (((HybridVector.ctor_default : HybridVector T 2).reserve P 100).push_back_all P
        xs).capacity) := by
  have key : ∀ {K : Nat} (t : HybridVector T K), t.all_inv → ∀ (q : Nat) (xs : List T),
      t.m_used + xs.length ≤ q →
      ((t.reserve P q).push_back_all P xs).capacity = (t.reserve P q).capacity ∧
      q ≤ ((t.reserve P q).push_back_all P xs).capacity := by
    intro K t ht q xs hlen
    have hinv := (HybridVector.all_inv_reserve P t q ht).1
    have hcap := HybridVector.le_capacity_reserve P t q
    have hu := (HybridVector.reserve_fields P t q).1
    have hc := HybridVector.push_back_all_capacity P xs (t.reserve P q) hinv
      (by rw [hu]; omega)
    unfold HybridVector.capacity StdVector.capacity at hcap ⊢
    rw [hc]
    exact ⟨rfl, hcap⟩
  refine ⟨?_, ?_⟩
  · intro xs hxs
    unfold HybridVector.size at hr hxs
    exact key s (reachable_all_inv P s h) r xs (by omega)
  · intro xs hxs
    have hsame : ((HybridVector.ctor_default : HybridVector T 2).reserve P 100).same_contents
        HybridVector.ctor_default := by
      obtain ⟨e1, e2, e3, -, -⟩ :=
        HybridVector.reserve_fields P (HybridVector.ctor_default : HybridVector T 2) 100
      exact ⟨e1, e2, e3⟩
    obtain ⟨c1, c2, c3⟩ := HybridVector.same_contents_push_back_all P xs _ _ hsame
    obtain ⟨p1, p2, p3⟩ := HybridVector.push_back_all_ctor_default (T := T) (N := 2) P xs
    obtain ⟨k1, k2⟩ := key (HybridVector.ctor_default : HybridVector T 2)
      HybridVector.all_inv_ctor_default 100 xs
      (by
        have : (HybridVector.ctor_default : HybridVector T 2).m_used = 0 := rfl
        omega)
    refine ⟨?_, ?_, ?_, ?_, ?_, k1, k2⟩
    · unfold HybridVector.size
      rw [c1, p1, hxs]
    · rw [c2, p2 0]
      rfl
    · rw [c2, p2 1]
      rfl
    · rw [c3, p3]
    · rw [c3, p3, List.length_drop, hxs]

/-- Witness for C18: after three appends at `N = 2`, `reserve(10)` covers seven more. -/
theorem reserve_is_sufficient_witness :
    Reachable doubling Nat 2 sample_run_push ∧ sample_run_push.size ≤ 10 ∧
      ∀ xs : List Nat, xs.length ≤ 10 - sample_run_push.size →
        ((sample_run_push.reserve doubling 10).push_back_all doubling xs).capacity
          = (sample_run_push.reserve doubling 10).capacity ∧
        10 ≤ ((sample_run_push.reserve doubling 10).push_back_all doubling xs).capacity :=
  ⟨Reachable.push_back _ _ _ _ (Reachable.push_back _ _ _ _ (Reachable.push_back _ _ _ _
      (Reachable.ctor_default Nat 2))),
    by decide,
    (reserve_is_sufficient doubling sample_run_push
      (Reachable.push_back _ _ _ _ (Reachable.push_back _ _ _ _ (Reachable.push_back _ _ _ _
        (Reachable.ctor_default Nat 2)))) 10 (by decide)).1⟩

/-- C19. Under the overflow-length invariant and for `i < length()`, `index(i)` reads
`inline_region[i]` when `i < N` and otherwise `overflow_region[i - N]`, where `i - N`
is the exact difference and lies below the overflow length; `pop_back` on a state with
`length > N` finds a non-empty overflow region; neither call reaches the out-of-bounds
branch of the underlying access. -/
theorem index_translation_in_bounds {T : Type} [Inhabited T] {N : Nat} (s : HybridVector T N)
    (hinv : s.overflow_length_inv) (i : Nat) (hi : i < s.size) :
    (∀ h : i < N, s.index i = (.ok (s.m_arr ⟨i, h⟩), s)) ∧
    (N ≤ i → (i - N) + N = i ∧
      ∃ hb : i - N < s.m_vec.data.length, s.index i = (.ok (s.m_vec.data[i - N]), s)) ∧
    (s.index i).1 ≠ .undefined ∧
    (N < s.size → s.m_vec.data ≠ [] ∧
      ∃ t, s.m_vec.back = some t ∧ s.pop_back.1 = .ok t) ∧
    s.pop_back.1 ≠ .undefined := by
  have hinv0 := hinv
  unfold HybridVector.overflow_length_inv StdVector.size at hinv
  unfold HybridVector.size at *
  have hpop : ∀ t, s.pop_back.1 = .ok t → s.pop_back.1 ≠ .undefined := by
    intro t ht
    rw [ht]
    simp
  refine ⟨?_, ?_, ?_, ?_, ?_⟩
  · intro h
    exact HybridVector.index_inline s i hi h
  · intro h
    have hb : i - N < s.m_vec.data.length := by omega
    exact ⟨by omega, hb, HybridVector.index_overflow s i hi (by omega) _
      (List.getElem?_eq_getElem hb)⟩
  · obtain ⟨t, ht⟩ := HybridVector.index_ok_of_inv s hinv0 i hi
    rw [ht]
    simp
  · intro hN
    have hlen : s.m_vec.data.length - 1 < s.m_vec.data.length := by omega
    have hb : s.m_vec.data.getLast? = some (s.m_vec.data[s.m_vec.data.length - 1]) := by
      rw [List.getLast?_eq_getElem?]
      exact List.getElem?_eq_getElem hlen
    refine ⟨?_, _, hb, ?_⟩
    · intro e
      rw [e] at hlen
      simp at hlen
    · rw [HybridVector.pop_back_overflow s (by omega) (by omega) _ hb]
  · by_cases hlt : s.m_used - 1 < N
    · apply hpop
      rw [HybridVector.pop_back_inline s (by omega) hlt]
    · have hlen : s.m_vec.data.length - 1 < s.m_vec.data.length := by omega
      have hb : s.m_vec.data.getLast? = some (s.m_vec.data[s.m_vec.data.length - 1]) := by
        rw [List.getLast?_eq_getElem?]
        exact List.getElem?_eq_getElem hlen
      apply hpop
      rw [HybridVector.pop_back_overflow s (by omega) hlt _ hb]

/-- Witness for C19 at `sample_three`, index `2` (the overflow element). -/
theorem index_translation_in_bounds_witness :
    sample_three.overflow_length_inv ∧ 2 < sample_three.size ∧
      (sample_three.index 2).1 ≠ .undefined :=
  ⟨by decide, by decide,
    (index_translation_in_bounds sample_three (by decide) 2 (by decide)).2.2.1⟩

/-! ## Constructor selection, enabling conditions, and `emplace_back` against `push_back` -/

/-- When `clear()` is not callable on the argument's type (a const object of a standard
container, or a class without `clear()`), the source comes back unchanged. -/
theorem source_kept_of_no_clear {T V : Type} [Inhabited T] {N : Nat} (P : GrowthPolicy)
    (conv : V → T) (c : SourceClass) (arg : ArgExpr) (src : List V)
    (r : HybridVector T N × List V) (h0 : (c.detail arg.is_const).has_clear = false)
    (h : construct_from_source P conv c arg src = some r) : r.2 = src := by
  have hm : is_eraseable_container (c.detail arg.is_const) = false := by
    simp [is_eraseable_container, h0]
  unfold construct_from_source select_overload at h
  simp only [hm, Bool.false_and, Bool.false_eq_true, if_false] at h
  by_cases hc : is_readable_container (c.detail false) = true
  · simp only [hc, if_true] at h
    cases h
    rfl
  · simp only [hc] at h
    cases h

/-- C13, at the failing input: a non-const lvalue `std::vector<int>` holding `1, 2, 3`,
passed to the constructor of a `HybridVector<int, 2>`.  Both constructor templates are
viable, the `Src&&` one is selected, and the source is left empty. -/
theorem nonconst_lvalue_source_is_emptied :
    is_readable_container (sample_std_vector.detail false) = true ∧
    is_eraseable_container (sample_std_vector.detail false) = true ∧
    select_overload sample_std_vector { is_lvalue := true, is_const := false }
      = .move_from_consumable ∧
    (construct_from_source (T := Nat) (N := 2) doubling id sample_std_vector
      { is_lvalue := true, is_const := false } [1, 2, 3]).map Prod.snd = some [] := by
  refine ⟨by decide, by decide, by decide, ?_⟩
  rfl

/-- C16, at the failing input: destination element type `std::string`, source element
type `const char*`.  The source's element type converts to the destination's, yet the
`enable_if` condition `std::is_convertible<T, U>` is false; with the two types swapped
the condition is true although the source's element type does not convert. -/
theorem cross_ctor_enabled_is_reversed :
    sample_is_convertible .const_char_ptr .std_string = true ∧
    cross_ctor_legal_spec sample_is_convertible .std_string .const_char_ptr = true ∧
    cross_ctor_enabled sample_is_convertible .std_string .const_char_ptr = false ∧
    cross_ctor_legal_spec sample_is_convertible .const_char_ptr .std_string = false ∧
    cross_ctor_enabled sample_is_convertible .const_char_ptr .std_string = true := by
  decide

/-- C20, at the failing input: a `HybridVector<std::vector<int>, 1>` holding one element,
and the arguments `(3, 7)`.  `emplace_back(3, 7)` appends `std::vector<int>(3, 7)`, three
copies of `7`, to the overflow region, while `push_back(std::vector<int>{3, 7})` appends
the two elements `3, 7`. -/
theorem emplace_back_overflow_differs :
    sample_full_inline.size = 1 ∧
    (sample_full_inline.emplace_back doubling sample_brace_init sample_paren_init
      (3, 7)).m_vec.data = [[7, 7, 7]] ∧
    (sample_full_inline.push_back doubling (sample_brace_init (3, 7))).m_vec.data
      = [[3, 7]] := by
  refine ⟨rfl, ?_, ?_⟩ <;> rfl

end hybrid_vector
